import Mathlib

/-!
Shallow embedding of the deal/auction/trick state machine of bbov3.js
(src/unnamed/part_010, the BBO Helper fork driving the bot extension), of the
double-dummy fingerprint check in showDoubleDummy, and of the recommendation
engine described by the specification.

Embedding conventions:
* JS strings that the code manipulates character-wise (calls such as "1S" or
  "p", cards such as "SA", hands) are embedded as lists of characters.
* JS numbers holding integers (indices, counts, millisecond timestamps) are
  embedded as Int or Nat.
* A JS field that may be undefined is embedded as an Option; a JS TypeError
  (property access on undefined) or RangeError is embedded as the .error case
  of Except, carrying the state as mutated up to the throw point.
-/

namespace BBOBot

/-- A call as stored in app.deal.auction: "p", "d", "r" (lowercase) or a
two-character bid such as "1S" (uppercase strain, as delivered by the
sc_call_made traffic). -/
abbrev Call := List Char

/-- The pass call "p". -/
def passCall : Call := ['p']

/-- The sentinel string 'Pass' that auctionContract assigns to
app.deal.contract on a passed-out hand. -/
def passOutSentinel : Call := ['P', 'a', 's', 's']

/-- A card string such as "SA", split as trickcard reads it: denom is
card.charAt(0) (suit character, uppercase), rankCh is card.charAt(1). -/
structure TCard where
  denom  : Char
  rankCh : Char
deriving DecidableEq, Repr, Inhabited

/-- The rankorder string "23456789TJQKA" of trickcard. -/
def rankorder : List Char := ['2','3','4','5','6','7','8','9','T','J','Q','K','A']

/-- JS String.indexOf on a character: the index of the first occurrence, or -1
when absent. -/
def jsIndexOf (l : List Char) (c : Char) : Int :=
  if c ∈ l then (l.indexOf c : Int) else -1

/-- rankorder.indexOf(card.charAt(1)) as computed by trickcard. -/
def rankVal (c : TCard) : Int := jsIndexOf rankorder c.rankCh

/-- JS strict equality between a one-character string (a card suit) and
app.deal.denom, which may be undefined (none).  undefined compares unequal to
every string. -/
def charEqOpt (c : Char) (o : Option Char) : Bool :=
  match o with
  | some t => decide (c = t)
  | none   => false

/-- app.trick: leader seat index (a JS number, NaN embedded as none) and the
ordered cards of the in-progress trick. -/
structure Trick where
  leader : Option Int
  cards  : List TCard
deriving DecidableEq, Repr

/-- One iteration of the winner loop of trickcard (source lines 1857-1870).
The state is (bix, bestDenom, bestRank); i is the loop index; trump is
app.deal.denom. -/
def trickStep (trump : Option Char) (st : Nat × Char × Int) (i : Nat) (c : TCard) :
    Nat × Char × Int :=
  if c.denom = st.2.1 then
    if rankVal c > st.2.2 then (i, st.2.1, rankVal c) else st
  else if charEqOpt c.denom trump then (i, c.denom, rankVal c)
  else st

/-- The index (0..3) of the winning card of a completed trick, exactly as the
loop of trickcard computes it from app.trick.cards[0..3]. -/
def trickWinnerBix (trump : Option Char) (c0 c1 c2 c3 : TCard) : Nat :=
  (trickStep trump
    (trickStep trump
      (trickStep trump (0, c0.denom, rankVal c0) 1 c1) 2 c2) 3 c3).1

/-- The card-play step of trickcard on (app.deal.tricks, app.trick): push the
card onto the in-progress trick; if it now holds 4 cards, append it to the
completed-trick list, compute the winner, and open a fresh trick led by the
winner (source lines 1851-1880). -/
def pushCard (trump : Option Char) (st : List Trick × Trick) (c : TCard) :
    List Trick × Trick :=
  let t : Trick := { st.2 with cards := st.2.cards ++ [c] }
  if t.cards.length = 4 then
    let bix := trickWinnerBix trump (t.cards.getD 0 default) (t.cards.getD 1 default)
      (t.cards.getD 2 default) (t.cards.getD 3 default)
    (st.1 ++ [t], { leader := t.leader.map fun l => Int.tmod (l + (bix : Int)) 4
                    cards := [] })
  else (st.1, t)

/-- The trick state reached by playing the cards of cs in order, starting from
an empty trick led by the opening leader. -/
def chunkPlay (trump : Option Char) (leader : Option Int) (cs : List TCard) :
    List Trick × Trick :=
  cs.foldl (pushCard trump) ([], { leader := leader, cards := [] })

/-- The while loop of undo that rewinds app.trick and app.deal.tricks by cnt
cards (source lines 1742-1757): truncate the in-progress trick if it holds
enough cards, otherwise pop the previous completed trick and continue; if the
completed-trick list runs dry the loop bails out leaving app.trick undefined
(embedded as none). -/
def rewindTricks (tricks : List Trick) (t : Trick) (cnt : Nat) :
    List Trick × Option Trick :=
  if cnt ≤ t.cards.length then
    (tricks, some { t with cards := t.cards.take (t.cards.length - cnt) })
  else
    match tricks with
    | [] => ([], none)
    | t1 :: ts =>
        rewindTricks (t1 :: ts).dropLast ((t1 :: ts).getLast (by simp))
          (cnt - t.cards.length)
termination_by tricks.length
decreasing_by simp [List.length_dropLast]

/-- JS call.charAt(1): the second character of a call, or none for the empty
string returned on a one-character call. -/
def charAt1 (c : Call) : Option Char := c.get? 1

/-- JS strict equality between call.charAt(1) (none standing for the empty
string '') and app.deal.denom (none standing for undefined): '' and undefined
compare unequal to every one-character string and to each other. -/
def jsCharEq (a b : Option Char) : Bool :=
  match a, b with
  | some x, some y => decide (x = y)
  | _, _ => false

/-- 'swne'.indexOf(dealer) as used by auctionContract ( <sc_deal> transmits
the dealer as a lowercase letter). -/
def seatIndexJS (c : Char) : Int :=
  if c = 's' then 0 else if c = 'w' then 1 else if c = 'n' then 2
  else if c = 'e' then 3 else -1

/-- The completion guard at the top of auctionContract (source lines
3412-3419): at least 4 calls and the last three calls are "p".  The guard is
written there as the negated disjunction
ncalls < 4 || au[ncalls-1] !== 'p' || au[ncalls-2] !== 'p' || au[ncalls-3] !== 'p'. -/
def auctionComplete (au : List Call) : Bool :=
  ¬(au.length < 4 ∨ au.getD (au.length - 1) [] ≠ passCall ∨
    au.getD (au.length - 2) [] ≠ passCall ∨ au.getD (au.length - 3) [] ≠ passCall)

/-- The descending i1 loop of auctionContract: starting at index i and walking
down to 0, the first index holding a two-character call (a bid); none when the
loop falls through with i1 = -1. -/
def lastBidIx (au : List Call) : Nat → Option Nat
  | 0 => if (au.getD 0 []).length = 2 then some 0 else none
  | i + 1 => if (au.getD (i + 1) []).length = 2 then some (i + 1) else lastBidIx au i

/-- The body of the ascending i2 loop of auctionContract, with explicit fuel
so that the recursion is structural (the loop advances i by 2 while
i < bound, so bound + 1 iterations always suffice). -/
def firstDenomIxGo (au : List Call) (denom : Option Char) (bound : Nat) :
    Nat → Nat → Nat
  | 0, i => i
  | fuel + 1, i =>
      if i < bound then
        if jsCharEq (charAt1 (au.getD i [])) denom then i
        else firstDenomIxGo au denom bound fuel (i + 2)
      else i

/-- The ascending i2 loop of auctionContract: starting at index i and stepping
by 2 while i < bound, stop at the first index whose call's charAt(1) equals
denom; on fall-through the loop variable ends at the first tested index ≥
bound. -/
def firstDenomIx (au : List Call) (denom : Option Char) (bound : Nat) (i : Nat) : Nat :=
  firstDenomIxGo au denom bound (bound + 1) i

/-- The result of auctionContract: the (contract, denom, declarer) triple it
stores on app.deal.  incomplete is the early return that sets all three fields
to undefined. -/
inductive ARes where
  | incomplete
  | found (contract : Call) (denom : Option Char) (declarer : Int)
deriving DecidableEq, Repr

/-- auctionContract (source lines 3405-3447).  When the descending loop finds
no bid (a passed-out auction) it leaves i1 = -1, and the following
au[i1].length dereferences undefined: a TypeError, embedded as .error, thrown
before any field is assigned.  The "Pass Out hand" branch of the source is
consequently unreachable. -/
def auctionContract (au : List Call) (dealer : Char) : Except Unit ARes :=
  if ¬ auctionComplete au then .ok .incomplete
  else
    match lastBidIx au (au.length - 4) with
    | none => .error ()
    | some i1 =>
        let contract := au.getD i1 []
        let denom := charAt1 contract
        let i2 := firstDenomIx au denom (au.length - 4) (i1 % 2)
        .ok (.found contract denom (Int.tmod (seatIndexJS dealer + (i2 : Int)) 4))

/-- The tracked state: the fields of app.deal that the state machine mutates,
plus the global app.trick.  app.deal.tricks and app.trick start out undefined
(none) and are first assigned at the opening lead.  contract, denom and
declarer are undefined until auctionContract assigns them. -/
structure AppState where
  auction         : List Call
  play            : List TCard
  actionTime      : List Int
  lastActionTime  : Int
  blast1_complete : Bool
  blast2_complete : Bool
  seenOpeningLead : Bool
  amDummy         : Bool
  reseating       : Bool
  contract        : Option Call
  denom           : Option Char
  declarer        : Option Int
  dealer          : Char
  tricks          : Option (List Trick)
  trick           : Option Trick
deriving DecidableEq, Repr

/-- The <sc_deal> handler's fresh-deal initialisation (source lines 898-907):
attributes such as dealer come from the message, the bookkeeping fields are
reset, and fields absent from the message (contract, denom, declarer, tricks,
reseating) are undefined.  app.trick is a global and is not reset here. -/
def newDeal (st : AppState) (dealer : Char) (timeStamp : Int) : AppState :=
  { auction := []
    play := []
    actionTime := []
    lastActionTime := timeStamp
    blast1_complete := false
    blast2_complete := false
    seenOpeningLead := false
    amDummy := false
    reseating := false
    contract := none
    denom := none
    declarer := none
    dealer := dealer
    tricks := none
    trick := st.trick }

/-- The <sc_deal_blast_complete> handler (source lines 964-974): ignored while
reseating; otherwise the first such message sets blast1_complete, the second
blast2_complete. -/
def blastComplete (st : AppState) : AppState :=
  if st.reseating then st
  else if ¬ st.blast1_complete then { st with blast1_complete := true }
  else { st with blast2_complete := true }

/-- The <sc_call_made> handler of processWebsocket (source lines 667-689):
dropped while the player is dummy or being reseated; otherwise the call is
appended to the auction, and its think time (zero while the deal blast is
still incomplete) is appended to actionTime.  The remainder of the handler
(bidder display, timing save on bidding/teaching tables) does not touch the
modelled state. -/
def callMade (st : AppState) (call : Call) (timeStamp : Int) : AppState :=
  if st.amDummy ∨ st.reseating then st
  else
    let tdiff := if st.blast1_complete then timeStamp - st.lastActionTime else 0
    { st with
      auction := st.auction ++ [call]
      actionTime := st.actionTime ++ [tdiff]
      lastActionTime := timeStamp }

/-- The unconditional bookkeeping at the top of trickcard (source lines
1816-1820): the card and its think time (zero while the deal blast is still
incomplete) are pushed, and the action clock restarts. -/
def trickcardPush (st : AppState) (card : TCard) (timeStamp : Int) : AppState :=
  let tdiff := if st.blast1_complete then timeStamp - st.lastActionTime else 0
  { st with
    play := st.play ++ [card]
    actionTime := st.actionTime ++ [tdiff]
    lastActionTime := timeStamp }

/-- The opening-lead block of trickcard (source lines 1822-1838): before the
opening lead has been seen, auctionContract is invoked (its TypeError on a
passed-out auction propagates, .error) and its result stored on the deal;
unless the stored contract is the 'Pass' sentinel, the trick bookkeeping is
initialised with the opening leader clockwise of declarer. -/
def trickcardContract (st1 : AppState) : Except AppState AppState :=
  if ¬ st1.seenOpeningLead then
    match auctionContract st1.auction st1.dealer with
    | .error _ => .error st1
    | .ok r =>
        let stc : AppState :=
          match r with
          | .incomplete => { st1 with contract := none, denom := none, declarer := none }
          | .found c d dec =>
              { st1 with contract := some c, denom := d, declarer := some dec }
        if stc.contract = some passOutSentinel then .ok stc
        else
          .ok { stc with
                seenOpeningLead := true
                tricks := some []
                trick := some { leader := stc.declarer.map fun dec => Int.tmod (dec + 1) 4
                                cards := [] } }
  else .ok st1

/-- The card push and trick completion of trickcard (source lines 1840-1881):
the card is pushed onto app.trick (a TypeError if it is undefined, .error);
at four cards the trick is appended to app.deal.tricks, the winner computed,
and a fresh trick opened led by the winner. -/
def trickcardTrickPush (st2 : AppState) (card : TCard) : Except AppState AppState :=
  match st2.trick with
  | none => .error st2
  | some t =>
      let t' : Trick := { t with cards := t.cards ++ [card] }
      if t'.cards.length = 4 then
        match st2.tricks with
        | none => .error st2
        | some ts =>
            let bix := trickWinnerBix st2.denom (t'.cards.getD 0 default)
              (t'.cards.getD 1 default) (t'.cards.getD 2 default) (t'.cards.getD 3 default)
            .ok { st2 with
                  tricks := some (ts ++ [t'])
                  trick := some { leader := t'.leader.map fun l => Int.tmod (l + (bix : Int)) 4
                                  cards := [] } }
      else .ok { st2 with trick := some t' }

/-- trickcard (source lines 1806-1882), as the sequence of its three blocks.
A JS exception leaves the state as mutated up to the throw point. -/
def trickcard (st : AppState) (card : TCard) (timeStamp : Int) :
    Except AppState AppState :=
  match trickcardContract (trickcardPush st card timeStamp) with
  | .error s => .error s
  | .ok st2 => trickcardTrickPush st2 card

/-- undo (source lines 1675-1761).  After the count parse, a count of 0 with
position "*" is treated as 1.  A count larger than actionTime.length is
rejected with no mutation.  Otherwise lastActionTime is set to the undo's
time, actionTime is truncated, then the play array is truncated — or, when
count exceeds the cards played, emptied, with the remainder popped off the
auction (a negative array length there is a RangeError, .error) and the
opening-lead and dummy flags cleared.  Finally, while the opening lead is
still seen, app.trick and app.deal.tricks are rewound; an undefined app.trick
or app.deal.tricks there is a TypeError (.error). -/
def effectiveCount (count : Nat) (posStar : Bool) : Nat :=
  if count = 0 ∧ posStar then 1 else count

def undoCore (st : AppState) (count : Nat) (posStar : Bool) (timeStamp : Int) :
    Except AppState AppState :=
  let undoCount := effectiveCount count posStar
  if undoCount > st.actionTime.length then .ok st
  else
    let st1 : AppState :=
      { st with
        lastActionTime := timeStamp
        actionTime := st.actionTime.take (st.actionTime.length - undoCount) }
    if st.play.length ≥ undoCount then
      let st2 : AppState := { st1 with play := st.play.take (st.play.length - undoCount) }
      if st2.seenOpeningLead then
        match st2.trick, st2.tricks with
        | some t, some ts =>
            let r := rewindTricks ts t undoCount
            .ok { st2 with tricks := some r.1, trick := r.2 }
        | _, _ => .error st2
      else .ok st2
    else
      let undoAuctionCount := undoCount - st.play.length
      if undoAuctionCount > st.auction.length then
        .error { st1 with seenOpeningLead := false, play := [] }
      else
        .ok { st1 with
          seenOpeningLead := false
          play := []
          auction := st.auction.take (st.auction.length - undoAuctionCount)
          amDummy := false }

/-- The state trickcard leaves behind, whether it returns or throws. -/
def trickcardResult (st : AppState) (card : TCard) (timeStamp : Int) : AppState :=
  match trickcard st card timeStamp with
  | .ok s => s
  | .error s => s

/-- The state undo leaves behind, whether it returns or throws. -/
def undoResult (st : AppState) (count : Nat) (posStar : Bool) (timeStamp : Int) : AppState :=
  match undoCore st count posStar timeStamp with
  | .ok s => s
  | .error s => s

/-- The non-timing fields of the tracked state: everything except
actionTime and lastActionTime. -/
def coreFields (st : AppState) :
    List Call × List TCard × Bool × Option Call × Option Char × Option Int ×
      Option (List Trick) × Option Trick × Bool × Bool × Char × Bool × Bool :=
  (st.auction, st.play, st.seenOpeningLead, st.contract, st.denom, st.declarer,
   st.tricks, st.trick, st.amDummy, st.reseating, st.dealer,
   st.blast1_complete, st.blast2_complete)

/-- The four modelled event shapes of the websocket feed. -/
inductive Event where
  | evNewDeal (dealer : Char) (t : Int)
  | evBlastComplete
  | evCallMade (c : Call) (t : Int)
  | evCardPlayed (c : TCard) (t : Int)
  | evUndo (count : Nat) (posStar : Bool) (t : Int)
deriving DecidableEq, Repr

/-- One step of processWebsocket on the modelled events.  The
<sc_card_played> handler (source lines 748-777) forwards to trickcard unless
the player is dummy with the reiteration blast still incomplete.  A JS
exception leaves the state as mutated up to the throw. -/
def applyEvent (st : AppState) (e : Event) : AppState :=
  match e with
  | .evNewDeal d t => newDeal st d t
  | .evBlastComplete => blastComplete st
  | .evCallMade c t => callMade st c t
  | .evCardPlayed c t =>
      if ¬ st.amDummy ∨ st.blast2_complete then trickcardResult st c t else st
  | .evUndo n p t => undoResult st n p t

/-- Applying a list of events in arrival order. -/
def replayEvents (st : AppState) (es : List Event) : AppState :=
  es.foldl applyEvent st

/-- Call events carrying arbitrary timestamps. -/
def callEvents (l : List (Call × Int)) : List Event :=
  l.map fun p => .evCallMade p.1 p.2

/-- Card-play events carrying arbitrary timestamps. -/
def cardEvents (l : List (TCard × Int)) : List Event :=
  l.map fun p => .evCardPlayed p.1 p.2


/-- The outcome of the stale-analysis validation in showDoubleDummy: the
non-accepting cases are the early returns of the source, each carrying its own
message. -/
inductive DDOutcome where
  | rejectedBoard
  | rejectedBoard99
  | rejectedDeal
  | accepted
deriving DecidableEq, Repr

/-- The dealsMatch loop of showDoubleDummy (source lines 2444-2451): a hand
comparison is made only when the deal viewer renders hand i as a full
16-character string; any such hand differing from the analysed deal's hand
marks a mismatch. -/
def dealsMatchLoop (dhand d2hand : List (List Char)) : Bool :=
  (List.range 4).all fun i =>
    ¬((d2hand.getD i []).length = 16 ∧ dhand.getD i [] ≠ d2hand.getD i [])

/-- The fingerprint validation of showDoubleDummy (source lines 2416-2451):
the analysed deal's board number d.bnum is compared with the displayed board
number only modulo 16 (with the never-used board number 99 special-cased),
and only then are fully-rendered hands compared. -/
def ddFingerprintCheck (dbnum bnum : Int) (dhand d2hand : List (List Char)) :
    DDOutcome :=
  if Int.tmod (dbnum - bnum) 16 ≠ 0 then
    if bnum = 99 then .rejectedBoard99 else .rejectedBoard
  else if ¬ dealsMatchLoop dhand d2hand then .rejectedDeal
  else .accepted

/-- Modelled from the spec: the recommendation engine
(bridge-bot/decision_engine.py, spec section 4.5) is not among the provided
sources — only its documentation is — so its contract is embedded from the
spec's words.  A double-dummy table tagged with a deal fingerprint: board
number and hand composition. -/
structure DDTable where
  fingerprintBoard : Int
  fingerprintHands : List (List Char)
  tricksFor        : Int → Char → Nat
deriving Inhabited

/-- Modelled from the spec: the typed absence reasons of recommend. -/
inductive NoRecommendation where
  | empty
  | staleOrMissingAnalysis
deriving DecidableEq, Repr

/-- Modelled from the spec: the legal subset of the acting seat's hand — if
the in-progress trick is non-empty, the cards matching the led suit when the
seat holds any, otherwise the full hand. -/
def legalCards (hand : List TCard) (trickCards : List TCard) : List TCard :=
  match trickCards with
  | [] => hand
  | led :: _ =>
      let follow := hand.filter fun c => c.denom = led.denom
      if follow.isEmpty then hand else follow

/-- Modelled from the spec: the tie-break of recommend — prefer the card in
the longest remaining suit, then the highest-ranked card. -/
def betterPick (hand : List TCard) (a b : TCard) : Bool :=
  let la := (hand.filter fun c => c.denom = a.denom).length
  let lb := (hand.filter fun c => c.denom = b.denom).length
  if la ≠ lb then la > lb else rankVal a > rankVal b

/-- Modelled from the spec: select the best card of the legal subset under the
tie-break order (every legal card reads the same static table entry for the
partnership and strain, so the tie-break governs the choice). -/
def pickBest (hand : List TCard) : List TCard → Option TCard
  | [] => none
  | c :: cs =>
      match pickBest hand cs with
      | none => some c
      | some b => some (if betterPick hand c b then c else b)

/-- Modelled from the spec: recommend(deal, dd_table).  Fails with
staleOrMissingAnalysis when the table is absent or its fingerprint (board
number and hand composition) differs from the current deal's; fails with
empty when the legal set is empty; otherwise returns the selected card and
the trick estimate read from the table. -/
def recommend (hand : List TCard) (trickCards : List TCard)
    (curBoard : Int) (curHands : List (List Char)) (seat : Int) (strain : Char)
    (ddTable : Option DDTable) : Except NoRecommendation (TCard × Nat) :=
  match ddTable with
  | none => .error .staleOrMissingAnalysis
  | some dd =>
      if dd.fingerprintBoard ≠ curBoard ∨ dd.fingerprintHands ≠ curHands then
        .error .staleOrMissingAnalysis
      else
        match pickBest hand (legalCards hand trickCards) with
        | none => .error .empty
        | some c => .ok (c, dd.tricksFor seat strain)

/-- The auction-completion predicate in the words of the spec (section 3):
length ≥ 4, the last three calls are Pass, and either the call before those
three is not a Pass or the auction is a pass-out of exactly 4 passes. -/
def specAuctionComplete (au : List Call) : Prop :=
  4 ≤ au.length ∧
  au.getD (au.length - 1) [] = passCall ∧
  au.getD (au.length - 2) [] = passCall ∧
  au.getD (au.length - 3) [] = passCall ∧
  (au.getD (au.length - 4) [] ≠ passCall ∨
    (au.length = 4 ∧ ∀ c ∈ au, c = passCall))

instance (au : List Call) : Decidable (specAuctionComplete au) := by
  unfold specAuctionComplete; infer_instance

/-- Modelled from the spec: Dummy is Declarer's partner, the seat opposite in
the clockwise cycle (the code keeps only an amDummy flag for the local
player, never a dummy seat index). -/
def dummyOf (declarer : Int) : Int := Int.tmod (declarer + 2) 4

/-- The card at loop index 0..3 of a completed trick. -/
def cardAt (c0 c1 c2 c3 : TCard) : Nat → TCard
  | 0 => c0
  | 1 => c1
  | 2 => c2
  | _ => c3

/-- The winning card of a completed trick: the card at the index the winner
loop of trickcard selects. -/
def winCard (T : Char) (c0 c1 c2 c3 : TCard) : TCard :=
  cardAt c0 c1 c2 c3 (trickWinnerBix (some T) c0 c1 c2 c3)

/-- Invariant of the winner loop of trickcard after the cards at indices
0..k have been examined: the state (bix, bestDenom, bestRank) points at a card
seen so far whose denomination and rank it records; bestDenom is the trump if
any trump has been seen and the led suit otherwise; and no seen card of the
bestDenom suit outranks bestRank. -/
def WInv (T : Char) (c0 c1 c2 c3 : TCard) (k : Nat) (st : Nat × Char × Int) : Prop :=
  st.1 ≤ k ∧
  (cardAt c0 c1 c2 c3 st.1).denom = st.2.1 ∧
  rankVal (cardAt c0 c1 c2 c3 st.1) = st.2.2 ∧
  ((∃ j ≤ k, (cardAt c0 c1 c2 c3 j).denom = T) → st.2.1 = T) ∧
  ((¬ ∃ j ≤ k, (cardAt c0 c1 c2 c3 j).denom = T) → st.2.1 = c0.denom) ∧
  (∀ j ≤ k, (cardAt c0 c1 c2 c3 j).denom = st.2.1 →
    rankVal (cardAt c0 c1 c2 c3 j) ≤ st.2.2)

/-- A blank pre-session state; every test scenario below starts by applying a
NewDeal event, which overwrites all of it except the global app.trick. -/
def blankState : AppState :=
  ⟨[], [], [], 0, false, false, false, false, false, none, none, none, 'n', none, none⟩

/-- Test vector: the auction 1S-p-p-p dealt by North, followed by the opening
lead of the spade ace. -/
def exEventsC6 : List Event :=
  [.evCallMade ['1','S'] 1, .evCallMade ['p'] 2, .evCallMade ['p'] 3,
   .evCallMade ['p'] 4, .evCardPlayed ⟨'S','A'⟩ 5]

/-- The state reached by exEventsC6 from a fresh deal. -/
def exMidPlay : AppState := replayEvents (newDeal blankState 'n' 0) exEventsC6

/-- Test vector: a deal whose blast has completed, with one call made 100 ms
in. -/
def exOneCall : AppState :=
  replayEvents (newDeal blankState 'n' 0)
    [.evBlastComplete, .evCallMade ['1','S'] 100]

end BBOBot

namespace BBOBot

/-! ## Theorems -/

/-- The card selected by pickBest is one of the candidates. -/
theorem pickBest_mem (hand : List TCard) (l : List TCard) (c : TCard)
    (h : pickBest hand l = some c) : c ∈ l := by
  induction l with
  | nil => simp [pickBest] at h
  | cons a cs ih =>
      rw [pickBest] at h
      cases hp : pickBest hand cs with
      | none =>
          rw [hp] at h
          simp only [Option.some.injEq] at h
          simp [← h]
      | some b =>
          rw [hp] at h
          simp only [Option.some.injEq] at h
          by_cases hb : betterPick hand a b = true

          · simp only [hb, if_true] at h
            simp [← h]
          · simp only [Bool.not_eq_true] at hb
            simp only [hb, Bool.false_eq_true, if_false] at h
            exact List.mem_cons_of_mem a (ih (h ▸ hp))

/-- Every legal card is a card of the hand. -/
theorem legalCards_subset (hand trickCards : List TCard) (c : TCard)
    (h : c ∈ legalCards hand trickCards) : c ∈ hand := by
  match trickCards with
  | [] => exact h
  | led :: rest =>
      rw [legalCards] at h
      by_cases he : (hand.filter fun x => x.denom = led.denom).isEmpty = true
      · rw [if_pos he] at h; exact h
      · rw [if_neg he] at h
        exact (List.mem_filter.mp h).1

/-- When the seat holds the led suit, every legal card follows suit. -/
theorem legalCards_follow (hand : List TCard) (led : TCard) (rest : List TCard)
    (c : TCard) (hx : ∃ x ∈ hand, x.denom = led.denom)
    (h : c ∈ legalCards hand (led :: rest)) : c.denom = led.denom := by
  rw [legalCards] at h
  have hne : (hand.filter fun x => x.denom = led.denom).isEmpty = false := by
    rcases hx with ⟨x, hxh, hxd⟩
    have hmem : x ∈ hand.filter fun y => y.denom = led.denom :=
      List.mem_filter.mpr ⟨hxh, by simp [hxd]⟩
    cases hl : hand.filter fun y => y.denom = led.denom with
    | nil => rw [hl] at hmem; simp at hmem
    | cons a as => rfl
  rw [hne] at h
  simp only [Bool.false_eq_true, if_false] at h
  have := (List.mem_filter.mp h).2
  simpa using this

/-- C9: a recommendation, when produced, names a card of the acting seat's
current remaining hand, and when the in-progress trick is non-empty and the
seat holds at least one card of the led suit, the recommended card follows
suit. -/
theorem recommend_in_hand_follows_suit
    (hand trickCards : List TCard) (curBoard : Int) (curHands : List (List Char))
    (seat : Int) (strain : Char) (dd : Option DDTable) (c : TCard) (est : Nat)
    (h : recommend hand trickCards curBoard curHands seat strain dd = .ok (c, est)) :
    c ∈ hand ∧
    ∀ led ∈ trickCards.head?, (∃ x ∈ hand, x.denom = led.denom) →
      c.denom = led.denom := by
  cases dd with
  | none => simp [recommend] at h
  | some t =>
      rw [recommend] at h
      by_cases hfp : t.fingerprintBoard ≠ curBoard ∨ t.fingerprintHands ≠ curHands
      · rw [if_pos hfp] at h; exact absurd h (by simp)
      · rw [if_neg hfp] at h
        cases hp : pickBest hand (legalCards hand trickCards) with
        | none => rw [hp] at h; exact absurd h (by simp)
        | some c' =>
            rw [hp] at h
            simp only [Except.ok.injEq, Prod.mk.injEq] at h
            obtain ⟨rfl, -⟩ := h
            have hmem := pickBest_mem hand _ _ hp
            refine ⟨legalCards_subset hand trickCards c' hmem, ?_⟩
            intro led hled hx
            cases trickCards with
            | nil => simp at hled
            | cons l rest =>
                obtain rfl : l = led := by simpa using hled
                exact legalCards_follow hand l rest c' hx hmem

/-- C9 witness: with a matching table, holding the spade ace and the heart
two over a spade lead, the engine recommends the spade ace: a card of the
hand that follows suit. -/
theorem recommend_in_hand_follows_suit_witness :
    recommend [⟨'H','2'⟩, ⟨'S','A'⟩] [⟨'S','2'⟩] 1 [] 0 'S'
        (some ⟨1, [], fun _ _ => 9⟩) = .ok (⟨'S','A'⟩, 9) ∧
    ((⟨'S','A'⟩ : TCard) ∈ [(⟨'H','2'⟩ : TCard), ⟨'S','A'⟩] ∧
      ∀ led ∈ ([(⟨'S','2'⟩ : TCard)] : List TCard).head?,
        (∃ x ∈ [(⟨'H','2'⟩ : TCard), ⟨'S','A'⟩], x.denom = led.denom) →
        (⟨'S','A'⟩ : TCard).denom = led.denom) :=
  ⟨by rfl,
    recommend_in_hand_follows_suit [⟨'H','2'⟩, ⟨'S','A'⟩] [⟨'S','2'⟩] 1 [] 0 'S'
      (some ⟨1, [], fun _ _ => 9⟩) ⟨'S','A'⟩ 9 (by rfl)⟩

/-- C5: undo with a count exceeding the recorded actions (calls plus card
plays, which equal actionTime.length by the bookkeeping invariant) is
rejected before any state is touched: the deal state is returned completely
unmodified, with no partial rollback. -/
theorem undo_exceeds_rejected (st : AppState) (n : Nat) (posStar : Bool) (t : Int)
    (hinv : st.actionTime.length = st.auction.length + st.play.length)
    (h : st.auction.length + st.play.length < n) :
    undoCore st n posStar t = .ok st := by
  have hn : effectiveCount n posStar = n := by
    unfold effectiveCount
    rcases n with _ | m
    · omega
    · simp
  unfold undoCore
  simp only [hn]
  rw [if_pos (by omega)]

/-- C5 witness: Undo(5) after 3 recorded actions (2 calls and 1 card play
would also do; here 3 calls) is rejected with the state unchanged. -/
theorem undo_exceeds_rejected_witness :
    (let st := replayEvents (newDeal blankState 'n' 0)
      [.evCallMade ['1','S'] 1, .evCallMade ['p'] 2, .evCallMade ['p'] 3]
     st.actionTime.length = st.auction.length + st.play.length ∧
     st.auction.length + st.play.length < 5 ∧
     undoCore st 5 false 10 = .ok st) :=
  ⟨by decide, by decide,
    undo_exceeds_rejected _ 5 false 10 (by decide) (by decide)⟩

/-- C2: contract resolution on the pass-out auction [Pass, Pass, Pass, Pass]
does not return the 'Pass' sentinel: the descending bid search leaves
i1 = -1 and au[-1].length throws a TypeError (the "Pass Out hand" branch of
auctionContract is unreachable). -/
theorem auctionContract_passout_throws :
    auctionContract [passCall, passCall, passCall, passCall] 'n' = .error () := by
  rfl

/-- C3 counterexample: on the auction of five passes the resolver's
completion guard holds (length ≥ 4 and last three calls Pass) although the
spec's predicate does not (no prior non-pass call and more than 4 calls). -/
theorem auctionComplete_five_passes :
    auctionComplete [passCall, passCall, passCall, passCall, passCall] = true ∧
    ¬ specAuctionComplete [passCall, passCall, passCall, passCall, passCall] := by
  decide

/-- C3 amended: the completion predicate used by the contract resolver holds
iff the auction has length ≥ 4 and the last three calls are Pass; the call
before those three passes is not examined. -/
theorem auctionComplete_iff (au : List Call) :
    auctionComplete au = true ↔
      4 ≤ au.length ∧ au.getD (au.length - 1) [] = passCall ∧
      au.getD (au.length - 2) [] = passCall ∧ au.getD (au.length - 3) [] = passCall := by
  simp only [auctionComplete, decide_eq_true_eq, not_or, not_lt, not_not, ne_eq]

/-- C8 counterexample: a double-dummy result for board 1 is accepted against
a displayed board 17 when the displayed hands are not fully rendered (BBO's
"SHDC" placeholder): the board numbers are compared only modulo 16, so a
deal-fingerprint mismatch is not rejected. -/
theorem ddFingerprintCheck_mod16_accepts :
    ddFingerprintCheck 1 17
        [['S'], ['S'], ['S'], ['S']]
        [['S','H','D','C'], ['S','H','D','C'], ['S','H','D','C'], ['S','H','D','C']]
      = .accepted ∧ (1 : Int) ≠ 17 := by
  decide

/-- C8 amended: showDoubleDummy accepts a double-dummy result iff the
analysed board number matches the displayed board number modulo 16 and every
hand the viewer renders as a full 16-character string equals the analysed
deal's hand; any other outcome is an explicit rejection, never an
application of the stale table. -/
theorem ddFingerprintCheck_iff (dbnum bnum : Int) (dhand d2hand : List (List Char)) :
    ddFingerprintCheck dbnum bnum dhand d2hand = .accepted ↔
      Int.tmod (dbnum - bnum) 16 = 0 ∧
      ∀ i < 4, (d2hand.getD i []).length = 16 → dhand.getD i [] = d2hand.getD i [] := by
  have hloop : dealsMatchLoop dhand d2hand = true ↔
      ∀ i < 4, (d2hand.getD i []).length = 16 → dhand.getD i [] = d2hand.getD i [] := by
    simp only [dealsMatchLoop, List.all_eq_true, List.mem_range, decide_eq_true_eq,
      not_and, not_not, ne_eq]
  unfold ddFingerprintCheck
  rcases Decidable.em (Int.tmod (dbnum - bnum) 16 = 0) with h1 | h1
  · rcases Decidable.em (dealsMatchLoop dhand d2hand = true) with h3 | h3
    · rw [if_neg (not_not_intro h1), if_neg (not_not_intro h3)]
      exact iff_of_true rfl ⟨h1, hloop.mp h3⟩
    · rw [if_neg (not_not_intro h1), if_pos h3]
      constructor
      · intro hc; exact DDOutcome.noConfusion hc
      · rintro ⟨-, hall⟩; exact absurd (hloop.mpr hall) h3
  · rw [if_pos h1]
    split_ifs with h2
    · constructor
      · intro hc; exact hc.elim
      · rintro ⟨hc0, -⟩; exact absurd hc0 h1
    · constructor
      · intro hc; exact hc.elim
      · rintro ⟨hc0, -⟩; exact absurd hc0 h1

/-- charEqOpt against a defined trump is plain character equality. -/
theorem charEqOpt_some (x y : Char) : charEqOpt x (some y) = true ↔ x = y := by
  simp [charEqOpt]

/-- Cards agreeing in both characters are equal. -/
theorem tcard_eq_of (a b : TCard) (hd : a.denom = b.denom) (hr : a.rankCh = b.rankCh) :
    a = b := by
  cases a; cases b; simp_all

/-- rankorder.indexOf is injective on characters present in rankorder. -/
theorem rankVal_inj (a b : TCard) (ha : a.rankCh ∈ rankorder) (hb : b.rankCh ∈ rankorder)
    (h : rankVal a = rankVal b) : a.rankCh = b.rankCh := by
  unfold rankVal jsIndexOf at h
  rw [if_pos ha, if_pos hb] at h
  have hn : rankorder.indexOf a.rankCh = rankorder.indexOf b.rankCh := by exact_mod_cast h
  exact (List.indexOf_inj ha hb).mp hn

/-- Distinct loop indices of a duplicate-free trick hold distinct cards. -/
theorem cardAt_ne (c0 c1 c2 c3 : TCard)
    (h01 : c0 ≠ c1) (h02 : c0 ≠ c2) (h03 : c0 ≠ c3)
    (h12 : c1 ≠ c2) (h13 : c1 ≠ c3) (h23 : c2 ≠ c3)
    (j w : Nat) (hj : j ≤ 3) (hw : w ≤ 3) (hne : j ≠ w) :
    cardAt c0 c1 c2 c3 j ≠ cardAt c0 c1 c2 c3 w := by
  interval_cases j <;> interval_cases w <;>
    simp only [cardAt] <;>
    first
      | exact absurd rfl hne
      | assumption
      | exact Ne.symm (by assumption)

/-- The winner-loop invariant holds before any comparison is made. -/
theorem winv_base (T : Char) (c0 c1 c2 c3 : TCard) :
    WInv T c0 c1 c2 c3 0 (0, c0.denom, rankVal c0) := by
  refine ⟨Nat.le_refl 0, rfl, rfl, ?_, ?_, ?_⟩
  · rintro ⟨j, hj, hd⟩
    have hj0 : j = 0 := Nat.le_zero.mp hj
    subst hj0
    exact hd
  · intro _; rfl
  · intro j hj _
    have hj0 : j = 0 := Nat.le_zero.mp hj
    subst hj0
    exact le_refl _

/-- One iteration of the winner loop preserves the invariant. -/
theorem winv_step (T : Char) (c0 c1 c2 c3 : TCard) (k : Nat) (st : Nat × Char × Int)
    (h : WInv T c0 c1 c2 c3 k st) :
    WInv T c0 c1 c2 c3 (k + 1)
      (trickStep (some T) st (k + 1) (cardAt c0 c1 c2 c3 (k + 1))) := by
  obtain ⟨h1, h2, h3, h4, h5, h6⟩ := h
  unfold trickStep
  split_ifs with ha hr htr
  · -- same suit as bestDenom, higher rank: the state moves to the new card
    refine ⟨Nat.le_refl _, ha, rfl, ?_, ?_, ?_⟩
    · rintro ⟨j, hj, hd⟩
      by_cases hjk : j ≤ k
      · exact h4 ⟨j, hjk, hd⟩
      · have : j = k + 1 := by omega
        subst this
        exact ha ▸ hd
    · intro hnex
      have : ¬ ∃ j ≤ k, (cardAt c0 c1 c2 c3 j).denom = T := by
        rintro ⟨j, hj, hd⟩
        exact hnex ⟨j, by omega, hd⟩
      exact h5 this
    · intro j hj hd
      by_cases hjk : j ≤ k
      · exact le_of_lt (lt_of_le_of_lt (h6 j hjk hd) hr)
      · have : j = k + 1 := by omega
        subst this
        exact le_refl _
  · -- same suit, not higher: state unchanged
    refine ⟨by omega, h2, h3, ?_, ?_, ?_⟩
    · rintro ⟨j, hj, hd⟩
      by_cases hjk : j ≤ k
      · exact h4 ⟨j, hjk, hd⟩
      · have : j = k + 1 := by omega
        subst this
        exact (ha ▸ hd : st.2.1 = T)
    · intro hnex
      have : ¬ ∃ j ≤ k, (cardAt c0 c1 c2 c3 j).denom = T := by
        rintro ⟨j, hj, hd⟩
        exact hnex ⟨j, by omega, hd⟩
      exact h5 this
    · intro j hj hd
      by_cases hjk : j ≤ k
      · exact h6 j hjk hd
      · have : j = k + 1 := by omega
        subst this
        omega
  · -- a trump appears for the first time: the state moves to the trump card
    have hT : (cardAt c0 c1 c2 c3 (k + 1)).denom = T := (charEqOpt_some _ _).mp htr
    refine ⟨Nat.le_refl _, rfl, rfl, fun _ => hT, ?_, ?_⟩
    · intro hnex
      exact absurd ⟨k + 1, le_refl _, hT⟩ hnex
    · intro j hj hd
      by_cases hjk : j ≤ k
      · exfalso
        have hjT : (cardAt c0 c1 c2 c3 j).denom = T := hd.trans hT
        have hbT : st.2.1 = T := h4 ⟨j, hjk, hjT⟩
        exact absurd (hT.trans hbT.symm) ha
      · have : j = k + 1 := by omega
        subst this
        exact le_refl _
  · -- off-suit non-trump: state unchanged
    have hnT : (cardAt c0 c1 c2 c3 (k + 1)).denom ≠ T := by
      intro hd
      exact absurd ((charEqOpt_some _ _).mpr hd) (by simpa using htr)
    refine ⟨by omega, h2, h3, ?_, ?_, ?_⟩
    · rintro ⟨j, hj, hd⟩
      by_cases hjk : j ≤ k
      · exact h4 ⟨j, hjk, hd⟩
      · have : j = k + 1 := by omega
        subst this
        exact absurd hd hnT
    · intro hnex
      have : ¬ ∃ j ≤ k, (cardAt c0 c1 c2 c3 j).denom = T := by
        rintro ⟨j, hj, hd⟩
        exact hnex ⟨j, by omega, hd⟩
      exact h5 this
    · intro j hj hd
      by_cases hjk : j ≤ k
      · exact h6 j hjk hd
      · have : j = k + 1 := by omega
        subst this
        exact absurd hd ha

/-- The winner-loop invariant at the end of the loop of trickcard. -/
theorem winv_final (T : Char) (c0 c1 c2 c3 : TCard) :
    WInv T c0 c1 c2 c3 3
      (trickStep (some T)
        (trickStep (some T)
          (trickStep (some T) (0, c0.denom, rankVal c0) 1 c1) 2 c2) 3 c3) := by
  have b := winv_base T c0 c1 c2 c3
  have s1 := winv_step T c0 c1 c2 c3 0 _ b
  have s2 := winv_step T c0 c1 c2 c3 1 _ s1
  have s3 := winv_step T c0 c1 c2 c3 2 _ s2
  exact s3

/-- Well-formed trick positions hold cards with ranks in rankorder. -/
theorem cardAt_rank_mem (c0 c1 c2 c3 : TCard)
    (hr0 : c0.rankCh ∈ rankorder) (hr1 : c1.rankCh ∈ rankorder)
    (hr2 : c2.rankCh ∈ rankorder) (hr3 : c3.rankCh ∈ rankorder)
    (i : Nat) (hi : i ≤ 3) : (cardAt c0 c1 c2 c3 i).rankCh ∈ rankorder := by
  interval_cases i <;> assumption

/-- C1: when the fourth card completes a trick with trump strain T and led
suit L (the suit of card 0), the winner index computed by trickcard selects a
trump card outranking every other trump card if any trump was played, and
otherwise a led-suit card outranking every other led-suit card; a card whose
suit is neither the led suit nor T never wins; and the new in-progress trick
is opened with the winner's seat (leader + winner index, mod 4) as leader. -/
theorem trick_winner_correct (T : Char) (c0 c1 c2 c3 : TCard) (L : Int) (ts : List Trick)
    (hr0 : c0.rankCh ∈ rankorder) (hr1 : c1.rankCh ∈ rankorder)
    (hr2 : c2.rankCh ∈ rankorder) (hr3 : c3.rankCh ∈ rankorder)
    (h01 : c0 ≠ c1) (h02 : c0 ≠ c2) (h03 : c0 ≠ c3)
    (h12 : c1 ≠ c2) (h13 : c1 ≠ c3) (h23 : c2 ≠ c3) :
    trickWinnerBix (some T) c0 c1 c2 c3 ≤ 3 ∧
    pushCard (some T) (ts, ⟨some L, [c0, c1, c2]⟩) c3 =
      (ts ++ [⟨some L, [c0, c1, c2, c3]⟩],
       ⟨some (Int.tmod (L + (trickWinnerBix (some T) c0 c1 c2 c3 : Int)) 4), []⟩) ∧
    ((winCard T c0 c1 c2 c3).denom = c0.denom ∨ (winCard T c0 c1 c2 c3).denom = T) ∧
    ((∃ j ≤ 3, (cardAt c0 c1 c2 c3 j).denom = T) →
      (winCard T c0 c1 c2 c3).denom = T ∧
      ∀ j ≤ 3, j ≠ trickWinnerBix (some T) c0 c1 c2 c3 →
        (cardAt c0 c1 c2 c3 j).denom = T →
        rankVal (cardAt c0 c1 c2 c3 j) < rankVal (winCard T c0 c1 c2 c3)) ∧
    ((¬ ∃ j ≤ 3, (cardAt c0 c1 c2 c3 j).denom = T) →
      (winCard T c0 c1 c2 c3).denom = c0.denom ∧
      ∀ j ≤ 3, j ≠ trickWinnerBix (some T) c0 c1 c2 c3 →
        (cardAt c0 c1 c2 c3 j).denom = c0.denom →
        rankVal (cardAt c0 c1 c2 c3 j) < rankVal (winCard T c0 c1 c2 c3)) := by
  obtain ⟨h1, h2, h3, h4, h5, h6⟩ := winv_final T c0 c1 c2 c3
  have hne := cardAt_ne c0 c1 c2 c3 h01 h02 h03 h12 h13 h23
  refine ⟨h1, by rfl, ?_, ?_, ?_⟩
  · by_cases hex : ∃ j ≤ 3, (cardAt c0 c1 c2 c3 j).denom = T
    · exact Or.inr (h2.trans (h4 hex))
    · exact Or.inl (h2.trans (h5 hex))
  · intro hex
    have hbD : (winCard T c0 c1 c2 c3).denom = T := h2.trans (h4 hex)
    refine ⟨hbD, ?_⟩
    intro j hj hjw hdT
    have hle : rankVal (cardAt c0 c1 c2 c3 j) ≤ rankVal (winCard T c0 c1 c2 c3) := by
      have hh := h6 j hj (hdT.trans (h4 hex).symm)
      rw [← h3] at hh
      exact hh
    rcases lt_or_eq_of_le hle with hlt | heq
    · exact hlt
    · exfalso
      have hrj := cardAt_rank_mem c0 c1 c2 c3 hr0 hr1 hr2 hr3 j hj
      have hrw := cardAt_rank_mem c0 c1 c2 c3 hr0 hr1 hr2 hr3 _ h1
      have hch := rankVal_inj _ _ hrj hrw heq
      have hdd : (cardAt c0 c1 c2 c3 j).denom = (winCard T c0 c1 c2 c3).denom :=
        hdT.trans hbD.symm
      exact hne j _ hj h1 hjw (tcard_eq_of _ _ hdd hch)
  · intro hex
    have hbD : (winCard T c0 c1 c2 c3).denom = c0.denom := h2.trans (h5 hex)
    refine ⟨hbD, ?_⟩
    intro j hj hjw hdT
    have hle : rankVal (cardAt c0 c1 c2 c3 j) ≤ rankVal (winCard T c0 c1 c2 c3) := by
      have hh := h6 j hj (hdT.trans (h5 hex).symm)
      rw [← h3] at hh
      exact hh
    rcases lt_or_eq_of_le hle with hlt | heq
    · exact hlt
    · exfalso
      have hrj := cardAt_rank_mem c0 c1 c2 c3 hr0 hr1 hr2 hr3 j hj
      have hrw := cardAt_rank_mem c0 c1 c2 c3 hr0 hr1 hr2 hr3 _ h1
      have hch := rankVal_inj _ _ hrj hrw heq
      have hdd : (cardAt c0 c1 c2 c3 j).denom = (winCard T c0 c1 c2 c3).denom :=
        hdT.trans hbD.symm
      exact hne j _ hj h1 hjw (tcard_eq_of _ _ hdd hch)

/-- C1 witness: spec scenario C — trump Hearts, trick led with the spade ace
followed by the heart two, spade king, spade queen: the heart two (index 1)
wins despite its rank, and the next trick is opened by seat leader+1. -/
theorem trick_winner_correct_witness :
    trickWinnerBix (some 'H') ⟨'S','A'⟩ ⟨'H','2'⟩ ⟨'S','K'⟩ ⟨'S','Q'⟩ ≤ 3 ∧
    pushCard (some 'H') ([], ⟨some 0, [⟨'S','A'⟩, ⟨'H','2'⟩, ⟨'S','K'⟩]⟩) ⟨'S','Q'⟩ =
      ([] ++ [⟨some 0, [⟨'S','A'⟩, ⟨'H','2'⟩, ⟨'S','K'⟩, ⟨'S','Q'⟩]⟩],
       ⟨some (Int.tmod (0 + (trickWinnerBix (some 'H') ⟨'S','A'⟩ ⟨'H','2'⟩ ⟨'S','K'⟩ ⟨'S','Q'⟩ : Int)) 4), []⟩) ∧
    ((winCard 'H' ⟨'S','A'⟩ ⟨'H','2'⟩ ⟨'S','K'⟩ ⟨'S','Q'⟩).denom = (⟨'S','A'⟩ : TCard).denom ∨
     (winCard 'H' ⟨'S','A'⟩ ⟨'H','2'⟩ ⟨'S','K'⟩ ⟨'S','Q'⟩).denom = 'H') ∧
    ((∃ j ≤ 3, (cardAt ⟨'S','A'⟩ ⟨'H','2'⟩ ⟨'S','K'⟩ ⟨'S','Q'⟩ j).denom = 'H') →
      (winCard 'H' ⟨'S','A'⟩ ⟨'H','2'⟩ ⟨'S','K'⟩ ⟨'S','Q'⟩).denom = 'H' ∧
      ∀ j ≤ 3, j ≠ trickWinnerBix (some 'H') ⟨'S','A'⟩ ⟨'H','2'⟩ ⟨'S','K'⟩ ⟨'S','Q'⟩ →
        (cardAt ⟨'S','A'⟩ ⟨'H','2'⟩ ⟨'S','K'⟩ ⟨'S','Q'⟩ j).denom = 'H' →
        rankVal (cardAt ⟨'S','A'⟩ ⟨'H','2'⟩ ⟨'S','K'⟩ ⟨'S','Q'⟩ j) <
          rankVal (winCard 'H' ⟨'S','A'⟩ ⟨'H','2'⟩ ⟨'S','K'⟩ ⟨'S','Q'⟩)) ∧
    ((¬ ∃ j ≤ 3, (cardAt ⟨'S','A'⟩ ⟨'H','2'⟩ ⟨'S','K'⟩ ⟨'S','Q'⟩ j).denom = 'H') →
      (winCard 'H' ⟨'S','A'⟩ ⟨'H','2'⟩ ⟨'S','K'⟩ ⟨'S','Q'⟩).denom = (⟨'S','A'⟩ : TCard).denom ∧
      ∀ j ≤ 3, j ≠ trickWinnerBix (some 'H') ⟨'S','A'⟩ ⟨'H','2'⟩ ⟨'S','K'⟩ ⟨'S','Q'⟩ →
        (cardAt ⟨'S','A'⟩ ⟨'H','2'⟩ ⟨'S','K'⟩ ⟨'S','Q'⟩ j).denom = (⟨'S','A'⟩ : TCard).denom →
        rankVal (cardAt ⟨'S','A'⟩ ⟨'H','2'⟩ ⟨'S','K'⟩ ⟨'S','Q'⟩ j) <
          rankVal (winCard 'H' ⟨'S','A'⟩ ⟨'H','2'⟩ ⟨'S','K'⟩ ⟨'S','Q'⟩)) :=
  trick_winner_correct 'H' ⟨'S','A'⟩ ⟨'H','2'⟩ ⟨'S','K'⟩ ⟨'S','Q'⟩ 0 []
    (by decide) (by decide) (by decide) (by decide)
    (by decide) (by decide) (by decide) (by decide) (by decide) (by decide)

/-- The opening-lead block changes only the contract bindings and trick
bookkeeping: the auction, play and timing lists pass through unchanged,
whether it returns or throws. -/
theorem trickcardContract_lists (st1 s : AppState)
    (h : trickcardContract st1 = .ok s ∨ trickcardContract st1 = .error s) :
    s.play = st1.play ∧ s.actionTime = st1.actionTime ∧ s.auction = st1.auction ∧
    s.amDummy = st1.amDummy ∧ s.dealer = st1.dealer ∧
    s.blast1_complete = st1.blast1_complete ∧ s.blast2_complete = st1.blast2_complete ∧
    s.lastActionTime = st1.lastActionTime ∧ s.reseating = st1.reseating := by
  unfold trickcardContract at h
  split_ifs at h with hsol
  · -- the opening lead had been seen: the block is a no-op
    rcases h with h | h
    · obtain rfl : st1 = s := by simpa using h
      simp
    · exact absurd h (by simp)
  · rcases hA : auctionContract st1.auction st1.dealer with e | r <;>
      rw [hA] at h <;> dsimp only at h
    · rcases h with h | h
      · exact absurd h (by simp)
      · obtain rfl : st1 = s := by simpa using h
        simp
    · cases r with
      | incomplete =>
          dsimp only at h
          split_ifs at h with hps <;>
            rcases h with h | h <;>
            first
              | (obtain rfl := (by simpa using h : _ = s); simp)
              | exact absurd h (by simp)
      | found c d dec =>
          dsimp only at h
          split_ifs at h with hps <;>
            rcases h with h | h <;>
            first
              | (obtain rfl := (by simpa using h : _ = s); simp)
              | exact absurd h (by simp)

/-- The trick-push block changes only app.trick and app.deal.tricks, whether
it returns or throws. -/
theorem trickcardTrickPush_lists (st2 : AppState) (card : TCard) (s : AppState)
    (h : trickcardTrickPush st2 card = .ok s ∨ trickcardTrickPush st2 card = .error s) :
    s.play = st2.play ∧ s.actionTime = st2.actionTime ∧ s.auction = st2.auction ∧
    s.contract = st2.contract ∧ s.denom = st2.denom ∧ s.declarer = st2.declarer ∧
    s.seenOpeningLead = st2.seenOpeningLead ∧ s.amDummy = st2.amDummy ∧
    s.dealer = st2.dealer ∧ s.blast1_complete = st2.blast1_complete ∧
    s.blast2_complete = st2.blast2_complete ∧ s.lastActionTime = st2.lastActionTime ∧
    s.reseating = st2.reseating := by
  unfold trickcardTrickPush at h
  rcases htr : st2.trick with _ | t <;> rw [htr] at h <;> dsimp only at h
  · rcases h with h | h
    · exact absurd h (by simp)
    · obtain rfl : st2 = s := by simpa using h
      simp
  · split_ifs at h with h4
    · rcases hts : st2.tricks with _ | ts <;> rw [hts] at h <;> dsimp only at h
      · rcases h with h | h
        · exact absurd h (by simp)
        · obtain rfl : st2 = s := by simpa using h
          simp
      · rcases h with h | h
        · obtain rfl := (by simpa using h : _ = s)
          simp
        · exact absurd h (by simp)
    · rcases h with h | h
      · obtain rfl := (by simpa using h : _ = s)
        simp
      · exact absurd h (by simp)

/-- trickcardResult written as the sequence of the blocks of trickcard. -/
theorem trickcardResult_eq (st : AppState) (c : TCard) (t : Int) :
    trickcardResult st c t =
      (match trickcardContract (trickcardPush st c t) with
       | .error s => s
       | .ok st2 =>
           match trickcardTrickPush st2 c with
           | .error s => s
           | .ok s => s) := by
  unfold trickcardResult trickcard
  rcases hC : trickcardContract (trickcardPush st c t) with s1 | st2
  · rfl
  · show (match trickcardTrickPush st2 c with
          | Except.ok s => s
          | Except.error s => s) =
        (match trickcardTrickPush st2 c with
          | Except.error s => s
          | Except.ok s => s)
    rcases trickcardTrickPush st2 c with s2 | s3 <;> rfl

/-- trickcard appends exactly one card to the play list and one entry to the
action-time list and leaves the auction alone, whether it returns or throws. -/
theorem trickcardResult_counts (st : AppState) (c : TCard) (t : Int) :
    (trickcardResult st c t).play = st.play ++ [c] ∧
    (trickcardResult st c t).actionTime.length = st.actionTime.length + 1 ∧
    (trickcardResult st c t).auction = st.auction := by
  have hpush : (trickcardPush st c t).play = st.play ++ [c] ∧
      (trickcardPush st c t).actionTime.length = st.actionTime.length + 1 ∧
      (trickcardPush st c t).auction = st.auction := by
    unfold trickcardPush
    simp
  rw [trickcardResult_eq]
  rcases hC : trickcardContract (trickcardPush st c t) with s1 | st2
  · have hl := trickcardContract_lists _ _ (Or.inr hC)
    exact ⟨hl.1.trans hpush.1, by rw [hl.2.1]; exact hpush.2.1, hl.2.2.1.trans hpush.2.2⟩
  · have hl := trickcardContract_lists _ _ (Or.inl hC)
    have hred : (match Except.ok st2 with
        | Except.error s => s
        | Except.ok st2 =>
            match trickcardTrickPush st2 c with
            | Except.error s => s
            | Except.ok s => s : AppState)
        = (match trickcardTrickPush st2 c with
           | Except.error s => s
           | Except.ok s => s) := rfl
    rw [hred]
    rcases hT : trickcardTrickPush st2 c with s2 | s3
    · have ht := trickcardTrickPush_lists _ _ _ (Or.inr hT)
      refine ⟨(ht.1.trans hl.1).trans hpush.1, ?_, (ht.2.2.1.trans hl.2.2.1).trans hpush.2.2⟩
      rw [ht.2.1, hl.2.1]; exact hpush.2.1
    · have ht := trickcardTrickPush_lists _ _ _ (Or.inl hT)
      refine ⟨(ht.1.trans hl.1).trans hpush.1, ?_, (ht.2.2.1.trans hl.2.2.1).trans hpush.2.2⟩
      rw [ht.2.1, hl.2.1]; exact hpush.2.1

/-- An in-range undo removes exactly the requested number of action-time
entries, and the same number of items in total from the play list and then
the auction list, whether it returns or throws. -/
theorem undoResult_lists (st : AppState) (n : Nat) (p : Bool) (t : Int)
    (hinv : st.actionTime.length = st.auction.length + st.play.length)
    (hle : effectiveCount n p ≤ st.actionTime.length) :
    (undoResult st n p t).actionTime.length =
      st.actionTime.length - effectiveCount n p ∧
    (undoResult st n p t).play.length =
      st.play.length - min (effectiveCount n p) st.play.length ∧
    (undoResult st n p t).auction.length =
      st.auction.length - (effectiveCount n p - st.play.length) := by
  unfold undoResult
  simp only [undoCore]
  rw [if_neg (show ¬ effectiveCount n p > st.actionTime.length by omega)]
  by_cases hp : st.play.length ≥ effectiveCount n p
  · rw [if_pos hp]
    split_ifs with hsol
    · rcases st.trick with _ | tr <;> rcases st.tricks with _ | ts <;>
        dsimp only <;>
        exact ⟨by (try simp [List.length_take]) <;> omega,
          by (try simp [List.length_take]) <;> omega,
          by (try simp) <;> omega⟩
    · exact ⟨by (try simp [List.length_take]) <;> omega,
        by (try simp [List.length_take]) <;> omega,
        by (try simp) <;> omega⟩
  · rw [if_neg hp]
    rw [if_neg (show ¬ effectiveCount n p - st.play.length > st.auction.length by omega)]
    exact ⟨by (try simp [List.length_take]) <;> omega,
      by (try simp) <;> omega,
      by (try simp [List.length_take]) <;> omega⟩

/-- Every modelled event preserves the bookkeeping equation
actionTime.length = auction.length + play.length. -/
theorem applyEvent_inv (st : AppState) (e : Event)
    (hinv : st.actionTime.length = st.auction.length + st.play.length) :
    (applyEvent st e).actionTime.length =
      (applyEvent st e).auction.length + (applyEvent st e).play.length := by
  cases e with
  | evNewDeal d t => simp [applyEvent, newDeal]
  | evBlastComplete =>
      simp only [applyEvent]
      unfold blastComplete
      split_ifs <;> simpa using hinv
  | evCallMade c t =>
      simp only [applyEvent]
      unfold callMade
      split_ifs with hg <;>
        first
          | exact hinv
          | (dsimp only
             simp only [List.length_append, List.length_cons, List.length_nil]
             omega)
  | evCardPlayed c t =>
      simp only [applyEvent]
      split_ifs with hg
      · have h := trickcardResult_counts st c t
        rw [h.2.1, h.2.2, h.1]
        simp only [List.length_append, List.length_cons, List.length_nil]
        omega
      · exact hinv
  | evUndo n p t =>
      simp only [applyEvent]
      by_cases hle : effectiveCount n p ≤ st.actionTime.length
      · have h := undoResult_lists st n p t hinv hle
        rw [h.1, h.2.1, h.2.2]
        omega
      · have hok : undoCore st n p t = .ok st := by
          simp only [undoCore]
          rw [if_pos (by omega)]
        unfold undoResult
        rw [hok]
        exact hinv

/-- C10: from any state satisfying it, the bookkeeping equation
actionTime.length = auction.length + play.length is preserved by every
sequence of new-deal, call-made, card-played and undo events; a recorded call
or card play appends exactly one entry to its own list and one to the
action-time list; and an in-range undo of count n removes exactly n
action-time entries and exactly n items in total, from the play list first
and then from the auction list. -/
theorem deal_bookkeeping_invariant :
    (∀ (st : AppState) (es : List Event),
        st.actionTime.length = st.auction.length + st.play.length →
        (replayEvents st es).actionTime.length =
          (replayEvents st es).auction.length + (replayEvents st es).play.length) ∧
    (∀ (st : AppState) (c : Call) (t : Int), ¬(st.amDummy ∨ st.reseating) →
        (callMade st c t).auction = st.auction ++ [c] ∧
        (callMade st c t).actionTime.length = st.actionTime.length + 1 ∧
        (callMade st c t).play = st.play) ∧
    (∀ (st : AppState) (c : TCard) (t : Int),
        (trickcardResult st c t).play = st.play ++ [c] ∧
        (trickcardResult st c t).actionTime.length = st.actionTime.length + 1 ∧
        (trickcardResult st c t).auction = st.auction) ∧
    (∀ (st : AppState) (n : Nat) (p : Bool) (t : Int),
        st.actionTime.length = st.auction.length + st.play.length →
        effectiveCount n p ≤ st.actionTime.length →
        (undoResult st n p t).actionTime.length =
          st.actionTime.length - effectiveCount n p ∧
        (undoResult st n p t).play.length =
          st.play.length - min (effectiveCount n p) st.play.length ∧
        (undoResult st n p t).auction.length =
          st.auction.length - (effectiveCount n p - st.play.length)) := by
  refine ⟨?_, ?_, trickcardResult_counts, undoResult_lists⟩
  · intro st es hinv
    induction es generalizing st with
    | nil => exact hinv
    | cons e es ih => exact ih _ (applyEvent_inv st e hinv)
  · intro st c t hg
    unfold callMade
    rw [if_neg hg]
    refine ⟨rfl, ?_, rfl⟩
    simp

/-- C10 witness: the bookkeeping facts at concrete states — the five-event
deal of exEventsC6, a one-call state, and an in-range Undo(3). -/
theorem deal_bookkeeping_invariant_witness :
    ((replayEvents (newDeal blankState 'n' 0) exEventsC6).actionTime.length =
      (replayEvents (newDeal blankState 'n' 0) exEventsC6).auction.length +
      (replayEvents (newDeal blankState 'n' 0) exEventsC6).play.length) ∧
    ((callMade exOneCall passCall 200).auction = exOneCall.auction ++ [passCall] ∧
      (callMade exOneCall passCall 200).actionTime.length =
        exOneCall.actionTime.length + 1 ∧
      (callMade exOneCall passCall 200).play = exOneCall.play) ∧
    ((trickcardResult exMidPlay ⟨'S','2'⟩ 6).play = exMidPlay.play ++ [⟨'S','2'⟩] ∧
      (trickcardResult exMidPlay ⟨'S','2'⟩ 6).actionTime.length =
        exMidPlay.actionTime.length + 1 ∧
      (trickcardResult exMidPlay ⟨'S','2'⟩ 6).auction = exMidPlay.auction) ∧
    ((undoResult exMidPlay 3 false 99).actionTime.length =
        exMidPlay.actionTime.length - effectiveCount 3 false ∧
      (undoResult exMidPlay 3 false 99).play.length =
        exMidPlay.play.length - min (effectiveCount 3 false) exMidPlay.play.length ∧
      (undoResult exMidPlay 3 false 99).auction.length =
        exMidPlay.auction.length - (effectiveCount 3 false - exMidPlay.play.length)) :=
  ⟨deal_bookkeeping_invariant.1 (newDeal blankState 'n' 0) exEventsC6 (by decide),
   deal_bookkeeping_invariant.2.1 exOneCall passCall 200 (by decide),
   deal_bookkeeping_invariant.2.2.1 exMidPlay ⟨'S','2'⟩ 6,
   deal_bookkeeping_invariant.2.2.2 exMidPlay 3 false 99 (by decide) (by decide)⟩

/-- C6 counterexample: on the concrete deal exMidPlay (auction 1S-p-p-p by
dealer North completed, opening lead played), Undo(2) rolls back past the
contract-establishing final pass, and the tracker reverts to the auction
phase (seenOpeningLead cleared, play emptied, one call popped) — but the
Contract, denom, Declarer and the opening-leader binding in app.trick all
survive instead of being cleared, contradicting the claim. -/
theorem undo_into_auction_counterexample :
    (applyEvent exMidPlay (.evUndo 2 false 10)).seenOpeningLead = false ∧
    (applyEvent exMidPlay (.evUndo 2 false 10)).auction.length = 3 ∧
    (applyEvent exMidPlay (.evUndo 2 false 10)).play = [] ∧
    (applyEvent exMidPlay (.evUndo 2 false 10)).contract = some ['1','S'] ∧
    (applyEvent exMidPlay (.evUndo 2 false 10)).declarer = some 2 ∧
    (applyEvent exMidPlay (.evUndo 2 false 10)).trick ≠ none := by
  decide

/-- C6 amended: when an in-range undo's count exceeds the cards played, the
remainder pops trailing auction calls and the tracker reverts to the auction
phase — the opening-lead and dummy flags are cleared and the play list
emptied — but the Contract, denom, Declarer and opening-leader (app.trick)
bindings are left in place, holding stale values until the next opening lead
recomputes them. -/
theorem undo_into_auction_amended (st : AppState) (k : Nat) (t : Int)
    (hsol : st.seenOpeningLead = true)
    (hk1 : st.play.length < k)
    (hk2 : k ≤ st.actionTime.length)
    (hk3 : k - st.play.length ≤ st.auction.length) :
    undoCore st k false t = .ok
      { st with
        lastActionTime := t
        actionTime := st.actionTime.take (st.actionTime.length - k)
        seenOpeningLead := false
        play := []
        auction := st.auction.take (st.auction.length - (k - st.play.length))
        amDummy := false } ∧
    (undoResult st k false t).contract = st.contract ∧
    (undoResult st k false t).denom = st.denom ∧
    (undoResult st k false t).declarer = st.declarer ∧
    (undoResult st k false t).trick = st.trick := by
  have hek : effectiveCount k false = k := by
    unfold effectiveCount
    simp
  have hmain : undoCore st k false t = .ok
      { st with
        lastActionTime := t
        actionTime := st.actionTime.take (st.actionTime.length - k)
        seenOpeningLead := false
        play := []
        auction := st.auction.take (st.auction.length - (k - st.play.length))
        amDummy := false } := by
    simp only [undoCore, hek]
    rw [if_neg (by omega), if_neg (by omega), if_neg (by omega)]
  refine ⟨hmain, ?_, ?_, ?_, ?_⟩ <;>
    (unfold undoResult; rw [hmain])

/-- C6 amended witness: the concrete Undo(2) on exMidPlay. -/
theorem undo_into_auction_amended_witness :
    undoCore exMidPlay 2 false 10 = .ok
      { exMidPlay with
        lastActionTime := 10
        actionTime := exMidPlay.actionTime.take (exMidPlay.actionTime.length - 2)
        seenOpeningLead := false
        play := []
        auction := exMidPlay.auction.take
          (exMidPlay.auction.length - (2 - exMidPlay.play.length))
        amDummy := false } ∧
    (undoResult exMidPlay 2 false 10).contract = exMidPlay.contract ∧
    (undoResult exMidPlay 2 false 10).denom = exMidPlay.denom ∧
    (undoResult exMidPlay 2 false 10).declarer = exMidPlay.declarer ∧
    (undoResult exMidPlay 2 false 10).trick = exMidPlay.trick :=
  undo_into_auction_amended exMidPlay 2 10 (by decide) (by decide) (by decide) (by decide)

/-- The descending bid search returns the greatest index ≤ its start holding
a two-character call, or none when there is no bid at all. -/
theorem lastBidIx_spec (au : List Call) :
    ∀ i,
      (∀ i1, lastBidIx au i = some i1 →
        i1 ≤ i ∧ (au.getD i1 []).length = 2 ∧
        ∀ k, i1 < k → k ≤ i → (au.getD k []).length ≠ 2) ∧
      (lastBidIx au i = none → ∀ k ≤ i, (au.getD k []).length ≠ 2) := by
  intro i
  induction i with
  | zero =>
      constructor
      · intro i1 h
        rw [lastBidIx] at h
        by_cases hb : (au.getD 0 []).length = 2
        · rw [if_pos hb] at h
          obtain rfl : 0 = i1 := by simpa using h
          exact ⟨Nat.le_refl 0, hb, fun k hk1 hk2 => by omega⟩
        · rw [if_neg hb] at h
          simp at h
      · intro h k hk
        rw [lastBidIx] at h
        by_cases hb : (au.getD 0 []).length = 2
        · rw [if_pos hb] at h
          simp at h
        · have hk0 : k = 0 := Nat.le_zero.mp hk
          subst hk0
          exact hb
  | succ i ih =>
      constructor
      · intro i1 h
        rw [lastBidIx] at h
        by_cases hb : (au.getD (i + 1) []).length = 2
        · rw [if_pos hb] at h
          obtain rfl : i + 1 = i1 := by simpa using h
          exact ⟨Nat.le_refl _, hb, fun k hk1 hk2 => by omega⟩
        · rw [if_neg hb] at h
          obtain ⟨h1, h2, h3⟩ := ih.1 i1 h
          refine ⟨by omega, h2, ?_⟩
          intro k hk1 hk2
          rcases Nat.lt_or_ge k (i + 1) with hk | hk
          · exact h3 k hk1 (by omega)
          · have : k = i + 1 := by omega
            subst this
            exact hb
      · intro h k hk
        rw [lastBidIx] at h
        by_cases hb : (au.getD (i + 1) []).length = 2
        · rw [if_pos hb] at h
          simp at h
        · rw [if_neg hb] at h
          rcases Nat.lt_or_ge k (i + 1) with hk2 | hk2
          · exact ih.2 h k (by omega)
          · have : k = i + 1 := by omega
            subst this
            exact hb

/-- The stepping strain search: its result is ≥ and parity-equal to its
start, every skipped same-parity index fails the comparison, a result inside
the bound passes the comparison, and the result never passes bound + 1. -/
theorem firstDenomIxGo_spec (au : List Call) (d : Option Char) (bound : Nat) :
    ∀ fuel i, bound ≤ i + 2 * fuel → i ≤ bound + 1 →
      i ≤ firstDenomIxGo au d bound fuel i ∧
      firstDenomIxGo au d bound fuel i % 2 = i % 2 ∧
      (∀ k, i ≤ k → k < firstDenomIxGo au d bound fuel i → k % 2 = i % 2 →
        jsCharEq (charAt1 (au.getD k [])) d = false) ∧
      (firstDenomIxGo au d bound fuel i < bound →
        jsCharEq (charAt1 (au.getD (firstDenomIxGo au d bound fuel i) [])) d = true) ∧
      firstDenomIxGo au d bound fuel i ≤ bound + 1 := by
  intro fuel
  induction fuel with
  | zero =>
      intro i hfuel hi
      rw [firstDenomIxGo]
      exact ⟨Nat.le_refl i, rfl, fun k hk1 hk2 _ => by omega,
        fun hlt => by omega, hi⟩
  | succ fuel ih =>
      intro i hfuel hi
      rw [firstDenomIxGo]
      split_ifs with hib hm
      · exact ⟨Nat.le_refl i, rfl, fun k hk1 hk2 _ => by omega,
          fun _ => hm, by omega⟩
      · obtain ⟨g1, g2, g3, g4, g5⟩ := ih (i + 2) (by omega) (by omega)
        refine ⟨by omega, by omega, ?_, g4, g5⟩
        intro k hk1 hk2 hk3
        rcases Nat.lt_or_ge k (i + 1) with hk | hk
        · have hki : k = i := by omega
          subst hki
          simp only [Bool.not_eq_true] at hm
          exact hm
        · have hk2' : i + 2 ≤ k := by omega
          exact g3 k hk2' hk2 (by omega)
      · exact ⟨Nat.le_refl i, rfl, fun k hk1 hk2 _ => by omega,
          fun hlt => absurd hlt hib, by omega⟩

/-- A two-character call has a second character. -/
theorem charAt1_of_len2 (c : Call) (h : c.length = 2) :
    ∃ ch, charAt1 c = some ch := by
  match c, h with
  | [a, b], _ => exact ⟨b, rfl⟩

/-- A two-character call is not the four-character 'Pass' sentinel. -/
theorem len2_ne_passOutSentinel (c : Call) (h : c.length = 2) :
    c ≠ passOutSentinel := by
  intro heq
  rw [heq] at h
  simp [passOutSentinel] at h

/-- C4: when auctionContract resolves a contract, the stored declarer is the
seat, among the partnership that won the final bid (the indices of the same
parity as the final bid's index), that first named the contract's strain
anywhere in the auction — Pass/Double/Redouble are skipped because their
charAt(1) is empty; the stored seat index is dealerIndex + thatIndex mod 4.
Dummy (spec-modelled) is the declarer's partner and the opening leader set by
trickcard is the seat immediately clockwise of declarer (declarer + 1 mod 4).
In particular for dealer North and auction [1S, p, 2S, p, p, p] the contract
is 2S, declarer is seat 2 (North in the code's South-West-North-East order),
dummy is seat 0 (South) and the opening leader is seat 3 (East). -/
theorem declarer_first_strain_namer (au : List Call) (dealer : Char)
    (c : Call) (d : Option Char) (dec : Int)
    (horig : auctionContract au dealer = .ok (.found c d dec)) :
    (∃ i1 j,
      i1 ≤ au.length - 4 ∧ (au.getD i1 []).length = 2 ∧
      (∀ k, i1 < k → k ≤ au.length - 4 → (au.getD k []).length ≠ 2) ∧
      c = au.getD i1 [] ∧ d = charAt1 (au.getD i1 []) ∧
      j ≤ i1 ∧ j % 2 = i1 % 2 ∧
      jsCharEq (charAt1 (au.getD j [])) d = true ∧
      (∀ k < j, k % 2 = i1 % 2 → jsCharEq (charAt1 (au.getD k [])) d = false) ∧
      dec = Int.tmod (seatIndexJS dealer + (j : Int)) 4 ∧
      (∀ st1 : AppState, st1.seenOpeningLead = false → st1.auction = au →
        st1.dealer = dealer →
        trickcardContract st1 = .ok
          { st1 with
            contract := some c
            denom := d
            declarer := some dec
            seenOpeningLead := true
            tricks := some []
            trick := some { leader := some (Int.tmod (dec + 1) 4), cards := [] } })) ∧
    (auctionContract [['1','S'], ['p'], ['2','S'], ['p'], ['p'], ['p']] 'n' =
        .ok (.found ['2','S'] (some 'S') 2) ∧
      dummyOf 2 = 0 ∧ Int.tmod (2 + 1) 4 = 3) := by
  refine ⟨?_, by rfl, by decide, by decide⟩
  have h := horig
  unfold auctionContract at h
  split_ifs at h with hcomp
  case neg => exact absurd h (by simp)
  · rcases hL : lastBidIx au (au.length - 4) with _ | i1 <;> rw [hL] at h
    · exact absurd h (by simp)
    · simp only [Except.ok.injEq, ARes.found.injEq] at h
      obtain ⟨hc, hd, hdec⟩ := h
      subst hc
      subst hd
      subst hdec
      obtain ⟨hi1le, hi1len, hi1last⟩ := (lastBidIx_spec au (au.length - 4)).1 i1 hL
      obtain ⟨ch, hchEq⟩ := charAt1_of_len2 _ hi1len
      have hmatch_i1 : jsCharEq (charAt1 (au.getD i1 []))
          (charAt1 (au.getD i1 [])) = true := by
        rw [hchEq]
        simp [jsCharEq]
      obtain ⟨g1, g2, g3, g4, g5⟩ :=
        firstDenomIxGo_spec au (charAt1 (au.getD i1 [])) (au.length - 4)
          (au.length - 4 + 1) (i1 % 2) (by omega) (by omega)
      have hjle : firstDenomIxGo au (charAt1 (au.getD i1 [])) (au.length - 4)
          (au.length - 4 + 1) (i1 % 2) ≤ i1 := by
        by_contra hgt
        push_neg at hgt
        have hf := g3 i1 (Nat.mod_le i1 2) hgt (by omega)
        rw [hf] at hmatch_i1
        exact absurd hmatch_i1 (by simp)
      have hmatch_j : jsCharEq
          (charAt1 (au.getD (firstDenomIxGo au (charAt1 (au.getD i1 []))
            (au.length - 4) (au.length - 4 + 1) (i1 % 2)) []))
          (charAt1 (au.getD i1 [])) = true := by
        rcases Nat.lt_or_ge (firstDenomIxGo au (charAt1 (au.getD i1 []))
            (au.length - 4) (au.length - 4 + 1) (i1 % 2)) (au.length - 4) with hlt | hge
        · exact g4 hlt
        · have hji : firstDenomIxGo au (charAt1 (au.getD i1 []))
              (au.length - 4) (au.length - 4 + 1) (i1 % 2) = i1 := by omega
          rw [hji]
          exact hmatch_i1
      refine ⟨i1, firstDenomIxGo au (charAt1 (au.getD i1 [])) (au.length - 4)
          (au.length - 4 + 1) (i1 % 2),
        hi1le, hi1len, hi1last, rfl, rfl, hjle, by omega, hmatch_j, ?_, rfl, ?_⟩
      · intro k hk hkp
        exact g3 k (by omega) hk (by omega)
      · intro st1 h1 h2 h3
        unfold trickcardContract
        rw [if_pos (by simp [h1]), h2, h3, horig]
        dsimp only
        rw [if_neg (fun hpp =>
          len2_ne_passOutSentinel _ hi1len (Option.some.inj hpp))]
        rfl

/-- C4 witness: the spec's Scenario A — dealer North, auction
[1S, p, 2S, p, p, p] — instantiating the declarer theorem: contract 2S,
declarer seat 2 (North), dummy seat 0 (South), opening leader seat 3
(East). -/
theorem declarer_first_strain_namer_witness :
    ((∃ i1 j,
      i1 ≤ ([['1','S'], ['p'], ['2','S'], ['p'], ['p'], ['p']] : List Call).length - 4 ∧
      (([['1','S'], ['p'], ['2','S'], ['p'], ['p'], ['p']] : List Call).getD i1 []).length = 2 ∧
      (∀ k, i1 < k →
        k ≤ ([['1','S'], ['p'], ['2','S'], ['p'], ['p'], ['p']] : List Call).length - 4 →
        (([['1','S'], ['p'], ['2','S'], ['p'], ['p'], ['p']] : List Call).getD k []).length ≠ 2) ∧
      (['2','S'] : Call) =
        ([['1','S'], ['p'], ['2','S'], ['p'], ['p'], ['p']] : List Call).getD i1 [] ∧
      (some 'S' : Option Char) =
        charAt1 (([['1','S'], ['p'], ['2','S'], ['p'], ['p'], ['p']] : List Call).getD i1 []) ∧
      j ≤ i1 ∧ j % 2 = i1 % 2 ∧
      jsCharEq (charAt1 (([['1','S'], ['p'], ['2','S'], ['p'], ['p'], ['p']] : List Call).getD j []))
        (some 'S') = true ∧
      (∀ k < j, k % 2 = i1 % 2 →
        jsCharEq (charAt1 (([['1','S'], ['p'], ['2','S'], ['p'], ['p'], ['p']] : List Call).getD k []))
          (some 'S') = false) ∧
      (2 : Int) = Int.tmod (seatIndexJS 'n' + (j : Int)) 4 ∧
      (∀ st1 : AppState, st1.seenOpeningLead = false →
        st1.auction = [['1','S'], ['p'], ['2','S'], ['p'], ['p'], ['p']] →
        st1.dealer = 'n' →
        trickcardContract st1 = .ok
          { st1 with
            contract := some ['2','S']
            denom := some 'S'
            declarer := some 2
            seenOpeningLead := true
            tricks := some []
            trick := some { leader := some (Int.tmod ((2 : Int) + 1) 4), cards := [] } })) ∧
    (auctionContract [['1','S'], ['p'], ['2','S'], ['p'], ['p'], ['p']] 'n' =
        .ok (.found ['2','S'] (some 'S') 2) ∧
      dummyOf 2 = 0 ∧ Int.tmod (2 + 1) 4 = 3)) :=
  declarer_first_strain_namer [['1','S'], ['p'], ['2','S'], ['p'], ['p'], ['p']] 'n'
    ['2','S'] (some 'S') 2 (by rfl)

/-- Playing one more card shifts the trick rewind by one action. -/
theorem rewind_cons (tricks : List Trick) (t : Trick) (c : TCard) (cnt : Nat) :
    rewindTricks tricks { t with cards := t.cards ++ [c] } (cnt + 1) =
      rewindTricks tricks t cnt := by
  obtain ⟨ld, cards⟩ := t
  rw [rewindTricks.eq_def]
  conv_rhs => rw [rewindTricks.eq_def]
  dsimp only
  by_cases hle : cnt ≤ cards.length
  · rw [if_pos (by simp only [List.length_append, List.length_cons, List.length_nil]; omega)]
    rw [if_pos hle]
    have h1 : (cards ++ [c]).length - (cnt + 1) = cards.length - cnt := by
      simp only [List.length_append, List.length_cons, List.length_nil]
      omega
    rw [h1, List.take_append_of_le_length (by omega)]
  · rw [if_neg (by simp only [List.length_append, List.length_cons, List.length_nil]; omega)]
    rw [if_neg hle]
    cases tricks with
    | nil => rfl
    | cons t1 ts =>
        have h1 : cnt + 1 - (cards ++ [c]).length = cnt - cards.length := by
          simp only [List.length_append, List.length_cons, List.length_nil]
          omega
        rw [h1]

/-- chunkPlay of one more card is pushCard on the chunked state. -/
theorem chunkPlay_concat (trump : Option Char) (L : Option Int) (cs : List TCard)
    (c : TCard) :
    chunkPlay trump L (cs ++ [c]) = pushCard trump (chunkPlay trump L cs) c := by
  unfold chunkPlay
  rw [List.foldl_append]
  rfl

/-- Rewinding from a freshly opened empty trick pops the just-completed
trick. -/
theorem rewind_pop (tricks : List Trick) (t' t : Trick) (hT : t.cards = [])
    (cnt : Nat) (hcnt : 0 < cnt) :
    rewindTricks (tricks ++ [t']) t cnt = rewindTricks tricks t' cnt := by
  rw [rewindTricks.eq_def]
  rw [if_neg (by rw [hT]; intro hc; simp at hc; omega)]
  rcases hsp : tricks ++ [t'] with _ | ⟨t1, rest⟩
  · exact absurd hsp (by simp)
  · dsimp only
    have hdl : (t1 :: rest).dropLast = tricks := by
      rw [← hsp]
      simp
    have hgl : (t1 :: rest).getLast (by simp) = t' := by
      have h2 : (t1 :: rest).getLast? = some t' := by
        rw [← hsp]
        simp
      rwa [List.getLast?_eq_getLast (t1 :: rest) (by simp), Option.some.injEq] at h2
    rw [hdl, hgl, hT]
    simp

/-- Rewinding one action undoes one pushCard. -/
theorem rewind_push (trump : Option Char) (st : List Trick × Trick) (c : TCard)
    (cnt : Nat) :
    rewindTricks (pushCard trump st c).1 (pushCard trump st c).2 (cnt + 1) =
      rewindTricks st.1 st.2 cnt := by
  unfold pushCard
  by_cases h4 : (st.2.cards ++ [c]).length = 4
  · rw [if_pos (by simpa using h4)]
    dsimp only
    rw [rewind_pop st.1 _ _ rfl (cnt + 1) (by omega)]
    exact rewind_cons st.1 st.2 c cnt
  · rw [if_neg (by simpa using h4)]
    exact rewind_cons st.1 st.2 c cnt

/-- The trick rewind of undo on a state built by chunkPlay is chunkPlay of
the truncated card list. -/
theorem rewind_chunk (trump : Option Char) (L : Option Int) :
    ∀ (cs : List TCard) (cnt : Nat), cnt ≤ cs.length →
      rewindTricks (chunkPlay trump L cs).1 (chunkPlay trump L cs).2 cnt =
        ((chunkPlay trump L (cs.take (cs.length - cnt))).1,
         some (chunkPlay trump L (cs.take (cs.length - cnt))).2) := by
  intro cs
  induction cs using List.reverseRecOn with
  | nil =>
      intro cnt hcnt
      have hc0 : cnt = 0 := by simpa using hcnt
      subst hc0
      rw [rewindTricks.eq_def]
      simp [chunkPlay]
  | append_singleton cs x ih =>
      intro cnt hcnt
      cases cnt with
      | zero =>
          rw [rewindTricks.eq_def]
          rw [if_pos (by omega)]
          simp [List.take_all_of_le, List.take_length]
      | succ m =>
          rw [chunkPlay_concat, rewind_push]
          have hm : m ≤ cs.length := by
            simpa using hcnt
          rw [ih m hm]
          have harith : (cs ++ [x]).length - (m + 1) = cs.length - m := by
            simp
          rw [harith]
          rw [List.take_append_of_le_length (by omega)]

/-- With the trick bookkeeping initialised, the trick-push block of
trickcard is exactly pushCard on (app.deal.tricks, app.trick). -/
theorem trickcardTrickPush_pushCard (st2 : AppState) (card : TCard)
    (tr0 : Trick) (ts0 : List Trick)
    (hTr : st2.trick = some tr0) (hTs : st2.tricks = some ts0) :
    trickcardTrickPush st2 card = .ok { st2 with
      tricks := some (pushCard st2.denom (ts0, tr0) card).1
      trick := some (pushCard st2.denom (ts0, tr0) card).2 } := by
  unfold trickcardTrickPush pushCard
  rw [hTr]
  dsimp only
  by_cases h4 : (tr0.cards ++ [card]).length = 4
  · rw [if_pos h4, if_pos h4, hTs]
  · rw [if_neg h4, if_neg h4, ← hTs]

/-- While cards are being forwarded (the player is not dummy, or the deal
blast reiteration has completed) and the opening lead has been seen, a
card-played event performs the bookkeeping pushes and one pushCard on the
trick state. -/
theorem applyEvent_card_inPlay (st : AppState) (card : TCard) (t : Int)
    (hSol : st.seenOpeningLead = true)
    (hFwd : st.amDummy = false ∨ st.blast2_complete = true)
    (tr0 : Trick) (ts0 : List Trick)
    (hTr : st.trick = some tr0) (hTs : st.tricks = some ts0) :
    applyEvent st (.evCardPlayed card t) =
      { trickcardPush st card t with
        tricks := some (pushCard st.denom (ts0, tr0) card).1
        trick := some (pushCard st.denom (ts0, tr0) card).2 } := by
  simp only [applyEvent]
  rw [if_pos (hFwd.elim (fun h => Or.inl (by simp [h])) (fun h => Or.inr h))]
  have hC : trickcardContract (trickcardPush st card t) = .ok (trickcardPush st card t) := by
    unfold trickcardContract
    rw [if_neg (by simp [trickcardPush, hSol])]
  have hP := trickcardTrickPush_pushCard (trickcardPush st card t) card tr0 ts0
    (by simp [trickcardPush, hTr]) (by simp [trickcardPush, hTs])
  unfold trickcardResult trickcard
  rw [hC]
  dsimp only
  rw [hP]
  rfl

/-- During play, an in-range undo of at most the cards played truncates the
timing and play lists and rewinds the trick bookkeeping; no other field
changes. -/
theorem undo_inPlay (S : AppState) (k : Nat) (tu : Int) (ts0 : List Trick) (tr0 : Trick)
    (hSol : S.seenOpeningLead = true)
    (hTr : S.trick = some tr0) (hTs : S.tricks = some ts0)
    (hk : k ≤ S.play.length) (hGuard : k ≤ S.actionTime.length) :
    undoResult S k false tu = { S with
      lastActionTime := tu
      actionTime := S.actionTime.take (S.actionTime.length - k)
      play := S.play.take (S.play.length - k)
      tricks := some (rewindTricks ts0 tr0 k).1
      trick := (rewindTricks ts0 tr0 k).2 } := by
  have he : effectiveCount k false = k := by simp [effectiveCount]
  unfold undoResult undoCore
  rw [he]
  rw [if_neg (by omega)]
  rw [if_pos (show S.play.length ≥ k from hk)]
  dsimp only
  rw [hSol, hTr, hTs]
  rfl

/-- Before the opening lead, an in-range undo of at most the cards played (so
necessarily of count zero, the play being empty) only truncates the timing
lists. -/
theorem undo_noLead (S : AppState) (k : Nat) (tu : Int)
    (hSol : S.seenOpeningLead = false)
    (hk : k ≤ S.play.length) (hGuard : k ≤ S.actionTime.length) :
    undoResult S k false tu = { S with
      lastActionTime := tu
      actionTime := S.actionTime.take (S.actionTime.length - k)
      play := S.play.take (S.play.length - k) } := by
  have he : effectiveCount k false = k := by simp [effectiveCount]
  unfold undoResult undoCore
  rw [he]
  rw [if_neg (by omega)]
  rw [if_pos (show S.play.length ≥ k from hk)]
  dsimp only
  rw [hSol]
  rfl

/-- An in-range undo whose count exceeds the cards played empties the play,
pops the remainder off the auction, and clears the opening-lead and dummy
flags; the trick rewind is skipped and the contract fields survive. -/
theorem undo_crossing (S : AppState) (k : Nat) (tu : Int)
    (hk : S.play.length < k) (hGuard : k ≤ S.actionTime.length)
    (hAucLen : k - S.play.length ≤ S.auction.length) :
    undoResult S k false tu = { S with
      lastActionTime := tu
      actionTime := S.actionTime.take (S.actionTime.length - k)
      seenOpeningLead := false
      play := []
      auction := S.auction.take (S.auction.length - (k - S.play.length))
      amDummy := false } := by
  have he : effectiveCount k false = k := by simp [effectiveCount]
  unfold undoResult undoCore
  rw [he]
  rw [if_neg (by omega)]
  rw [if_neg (show ¬ S.play.length ≥ k by omega)]
  dsimp only
  rw [if_neg (by omega)]

/-- Replaying call events while not dummy and not reseating appends the calls
to the auction and touches nothing else but the timing fields. -/
theorem replayCalls_full (RC : List (Call × Int)) :
    ∀ (T : AppState), T.amDummy = false → T.reseating = false →
      ∃ at2 lat2, replayEvents T (callEvents RC) =
        { T with
          auction := T.auction ++ RC.map Prod.fst
          actionTime := at2
          lastActionTime := lat2 } := by
  induction RC with
  | nil =>
      intro T hAm hRe
      exact ⟨T.actionTime, T.lastActionTime, by simp [replayEvents, callEvents]⟩
  | cons p rest ih =>
      intro T hAm hRe
      obtain ⟨c, t⟩ := p
      have hstep : applyEvent T (.evCallMade c t) = callMade T c t := rfl
      have hcm : callMade T c t = { T with
          auction := T.auction ++ [c]
          actionTime := T.actionTime ++ [if T.blast1_complete then t - T.lastActionTime else 0]
          lastActionTime := t } := by
        unfold callMade
        rw [if_neg (by simp [hAm, hRe])]
      obtain ⟨at2, lat2, heq⟩ := ih { T with
          auction := T.auction ++ [c]
          actionTime := T.actionTime ++ [if T.blast1_complete then t - T.lastActionTime else 0]
          lastActionTime := t } hAm hRe
      refine ⟨at2, lat2, ?_⟩
      have hre : replayEvents T (callEvents ((c, t) :: rest)) =
          replayEvents (applyEvent T (.evCallMade c t)) (callEvents rest) := rfl
      rw [hre, hstep, hcm, heq]
      simp [List.append_assoc]

/-- Replaying card events during play appends the cards and rebuilds the trick
bookkeeping by chunkPlay; every other non-timing field is unchanged. -/
theorem replayCards_inPlay (RP : List (TCard × Int)) :
    ∀ (T : AppState) (l : Option Int),
      T.seenOpeningLead = true →
      T.amDummy = false ∨ T.blast2_complete = true →
      T.tricks = some (chunkPlay T.denom l T.play).1 →
      T.trick = some (chunkPlay T.denom l T.play).2 →
      coreFields (replayEvents T (cardEvents RP)) =
        (T.auction, T.play ++ RP.map Prod.fst, true, T.contract, T.denom, T.declarer,
         some (chunkPlay T.denom l (T.play ++ RP.map Prod.fst)).1,
         some (chunkPlay T.denom l (T.play ++ RP.map Prod.fst)).2,
         T.amDummy, T.reseating, T.dealer, T.blast1_complete, T.blast2_complete) := by
  induction RP with
  | nil =>
      intro T l hSol hFwd hTs hTr
      simp [cardEvents, replayEvents, coreFields, hSol, hTs, hTr]
  | cons p rest ih =>
      intro T l hSol hFwd hTs hTr
      obtain ⟨c, t⟩ := p
      have hstep := applyEvent_card_inPlay T c t hSol hFwd _ _ hTr hTs
      have hre : replayEvents T (cardEvents ((c, t) :: rest)) =
          replayEvents (applyEvent T (.evCardPlayed c t)) (cardEvents rest) := rfl
      rw [hre, hstep]
      rw [show ((chunkPlay T.denom l T.play).1, (chunkPlay T.denom l T.play).2) =
        chunkPlay T.denom l T.play from rfl]
      rw [← chunkPlay_concat]
      rw [ih _ l (by simp [trickcardPush, hSol]) (by simpa [trickcardPush] using hFwd)
        (by simp [trickcardPush]) (by simp [trickcardPush])]
      simp [trickcardPush]

/-- Before the opening lead and while not dummy, a card-played event resolves
the contract from the auction, initialises the trick bookkeeping with the
opening leader clockwise of declarer, and pushes the card. -/
theorem applyEvent_card_opening (V : AppState) (c : TCard) (t : Int)
    (con : Call) (den : Option Char) (dec : Int)
    (hSol : V.seenOpeningLead = false) (hAm : V.amDummy = false)
    (hAuc : auctionContract V.auction V.dealer = Except.ok (.found con den dec))
    (hC2 : con ≠ passOutSentinel) :
    applyEvent V (.evCardPlayed c t) =
      { trickcardPush V c t with
        seenOpeningLead := true
        contract := some con
        denom := den
        declarer := some dec
        tricks := some []
        trick := some { leader := some (Int.tmod (dec + 1) 4)
                        cards := [c] } } := by
  simp only [applyEvent]
  rw [if_pos (Or.inl (by simp [hAm]))]
  have hC : trickcardContract (trickcardPush V c t) = .ok { trickcardPush V c t with
      seenOpeningLead := true
      contract := some con
      denom := den
      declarer := some dec
      tricks := some []
      trick := some { leader := some (Int.tmod (dec + 1) 4)
                      cards := [] } } := by
    unfold trickcardContract
    rw [if_pos (by simp [trickcardPush, hSol])]
    rw [show (trickcardPush V c t).auction = V.auction from rfl,
        show (trickcardPush V c t).dealer = V.dealer from rfl, hAuc]
    dsimp only
    rw [if_neg (fun hpp => hC2 (Option.some.inj hpp))]
    rfl
  unfold trickcardResult trickcard
  rw [hC]
  dsimp only
  unfold trickcardTrickPush
  dsimp only
  rw [if_neg (by simp)]
  rfl

/-- Replaying a nonempty run of card events from an auction-phase state (as the
crossing undo leaves behind) re-resolves the contract at the first card and
rebuilds the trick bookkeeping by chunkPlay. -/
theorem replayCards_opening (V : AppState) (con : Call) (den : Option Char) (dec : Int)
    (c : TCard) (t : Int) (rest : List (TCard × Int))
    (hSol : V.seenOpeningLead = false) (hAm : V.amDummy = false)
    (hP0 : V.play = [])
    (hAuc : auctionContract V.auction V.dealer = Except.ok (.found con den dec))
    (hC2 : con ≠ passOutSentinel) :
    coreFields (replayEvents V (cardEvents ((c, t) :: rest))) =
      (V.auction, c :: rest.map Prod.fst, true, some con, den, some dec,
       some (chunkPlay den (some (Int.tmod (dec + 1) 4)) (c :: rest.map Prod.fst)).1,
       some (chunkPlay den (some (Int.tmod (dec + 1) 4)) (c :: rest.map Prod.fst)).2,
       V.amDummy, V.reseating, V.dealer, V.blast1_complete, V.blast2_complete) := by
  have hre : replayEvents V (cardEvents ((c, t) :: rest)) =
      replayEvents (applyEvent V (.evCardPlayed c t)) (cardEvents rest) := rfl
  rw [hre, applyEvent_card_opening V c t con den dec hSol hAm hAuc hC2]
  rw [replayCards_inPlay rest
    { trickcardPush V c t with
      seenOpeningLead := true
      contract := some con
      denom := den
      declarer := some dec
      tricks := some []
      trick := some { leader := some (Int.tmod (dec + 1) 4)
                      cards := [c] } }
    (some (Int.tmod (dec + 1) 4)) rfl (Or.inl hAm)
    (by simp [trickcardPush, hP0, chunkPlay, pushCard])
    (by simp [trickcardPush, hP0, chunkPlay, pushCard])]
  simp [trickcardPush, hP0]

/-- After a crossing undo, replaying the rolled-back calls and then the
rolled-back cards restores every non-timing field of the pre-undo state. -/
theorem crossing_chain (S U : AppState) (con : Call) (den : Option Char) (dec : Int)
    (RC : List (Call × Int)) (RP : List (TCard × Int))
    (hU1 : U.seenOpeningLead = false) (hU2 : U.amDummy = false)
    (hU3 : U.play = []) (hU4 : U.reseating = false)
    (hU5 : U.auction ++ RC.map Prod.fst = S.auction)
    (hU6 : U.contract = S.contract) (hU7 : U.denom = S.denom)
    (hU8 : U.declarer = S.declarer) (hU9 : U.tricks = S.tricks)
    (hU10 : U.trick = S.trick) (hU11 : U.dealer = S.dealer)
    (hU12 : U.blast1_complete = S.blast1_complete)
    (hU13 : U.blast2_complete = S.blast2_complete)
    (hAmS : S.amDummy = false) (hReS : S.reseating = false)
    (hSolLead : S.seenOpeningLead = true →
      S.contract = some con ∧ con ≠ passOutSentinel ∧ S.denom = den ∧
      S.declarer = some dec ∧
      auctionContract S.auction S.dealer = Except.ok (.found con den dec) ∧
      S.tricks = some (chunkPlay S.denom (some (Int.tmod (dec + 1) 4)) S.play).1 ∧
      S.trick = some (chunkPlay S.denom (some (Int.tmod (dec + 1) 4)) S.play).2)
    (hNoLead : S.seenOpeningLead = false → S.play = [])
    (hNE : S.seenOpeningLead = true → S.play ≠ [])
    (hRPfst : RP.map Prod.fst = S.play) :
    coreFields (replayEvents (replayEvents U (callEvents RC)) (cardEvents RP)) =
      coreFields S := by
  obtain ⟨at2, lat2, hV⟩ := replayCalls_full RC U hU2 hU4
  rw [hV]
  by_cases hSol : S.seenOpeningLead = true
  · obtain ⟨hCon, hC2, hDen, hDec, hAuc, hTs, hTr⟩ := hSolLead hSol
    have hPNE : S.play ≠ [] := hNE hSol
    have hAucU : auctionContract (U.auction ++ RC.map Prod.fst) U.dealer =
        Except.ok (.found con den dec) := by rw [hU5, hU11]; exact hAuc
    rcases RP with _ | ⟨⟨c, t⟩, rest⟩
    · exact absurd (by simpa using hRPfst.symm) hPNE
    · have hRP2 : c :: rest.map Prod.fst = S.play := by simpa using hRPfst
      rw [replayCards_opening
        { U with
          auction := U.auction ++ RC.map Prod.fst
          actionTime := at2
          lastActionTime := lat2 }
        con den dec c t rest hU1 hU2 hU3 hAucU hC2]
      simp [coreFields, hU2, hU4, hU5, hU11, hU12, hU13, hRP2, hDen, hSol, hCon,
        hDec, hTs, hTr, hAmS, hReS]
  · rw [Bool.not_eq_true] at hSol
    have hP0 : S.play = [] := hNoLead hSol
    have hRPnil : RP = [] := by rw [hP0] at hRPfst; simpa using hRPfst
    subst hRPnil
    simp [coreFields, cardEvents, replayEvents, hU1, hU2, hU3, hU4, hU5, hU6,
      hU7, hU8, hU9, hU10, hU11, hU12, hU13, hP0, hSol, hAmS, hReS]

/-- C7, counterexample: the round trip is not full structural equality.  A deal
whose blast has completed records a call with think time 100; undoing it at
time 500 and replaying the same call yields think time -400, so the actionTime
arrays differ. -/
theorem undo_replay_not_structural :
    replayEvents exOneCall [.evUndo 1 false 500, .evCallMade (['1','S'] : Call) 100] ≠
      exOneCall := by decide

/-- C7 (amended): for every deal state and every k not exceeding the recorded
actions, applying Undo(k) and then re-applying the same k rolled-back events
(the trailing auction calls followed by the rolled-back card plays, at
whatever times they arrive) restores every non-timing field of the deal state;
the timing fields are excluded because undo restarts the action clock at its
own arrival time.  The hypotheses are the reachability facts: the bookkeeping
invariant linking actionTime to the recorded calls and plays; once the opening
lead is seen, the contract fields are those auctionContract computes from the
current auction and the trick bookkeeping is the chunking of the play list;
card plays are currently being forwarded (not dummy with the blast reiteration
incomplete); the table is not reseating; and, when the undo crosses into the
auction, the player is not dummy and (if the opening lead was seen) at least
one card play is among the rolled-back events. -/
theorem undo_replay_roundtrip (S : AppState) (k : Nat) (tu : Int)
    (con : Call) (den : Option Char) (dec : Int)
    (RC : List (Call × Int)) (RP : List (TCard × Int))
    (hRe : S.reseating = false)
    (hFwd : S.amDummy = false ∨ S.blast2_complete = true)
    (hGuard : k ≤ S.actionTime.length)
    (hInv : S.actionTime.length = S.auction.length + S.play.length)
    (hLead : S.seenOpeningLead = true →
      S.contract = some con ∧ con ≠ passOutSentinel ∧ S.denom = den ∧
      S.declarer = some dec ∧
      auctionContract S.auction S.dealer = Except.ok (.found con den dec) ∧
      S.tricks = some (chunkPlay S.denom (some (Int.tmod (dec + 1) 4)) S.play).1 ∧
      S.trick = some (chunkPlay S.denom (some (Int.tmod (dec + 1) 4)) S.play).2)
    (hNoLead : S.seenOpeningLead = false → S.play = [])
    (hCross : S.play.length < k →
      S.amDummy = false ∧ (S.seenOpeningLead = true → S.play ≠ []))
    (hRC : RC.map Prod.fst = S.auction.drop (S.auction.length - (k - S.play.length)))
    (hRP : RP.map Prod.fst = S.play.drop (S.play.length - k)) :
    coreFields (replayEvents S
      (.evUndo k false tu :: (callEvents RC ++ cardEvents RP))) = coreFields S := by
  rcases le_or_lt k S.play.length with hk | hk
  · have hRCnil : RC = [] := by
      have h0 : k - S.play.length = 0 := by omega
      rw [h0, Nat.sub_zero, List.drop_length] at hRC
      simpa using hRC
    subst hRCnil
    by_cases hSol : S.seenOpeningLead = true
    · obtain ⟨hCon, hC2, hDen, hDec, hAuc, hTs, hTr⟩ := hLead hSol
      have hU := undo_inPlay S k tu _ _ hSol hTr hTs hk hGuard
      have hRW := rewind_chunk S.denom (some (Int.tmod (dec + 1) 4)) S.play k hk
      have hre : replayEvents S (.evUndo k false tu :: (callEvents [] ++ cardEvents RP)) =
          replayEvents (applyEvent S (.evUndo k false tu)) (cardEvents RP) := rfl
      rw [hre]
      rw [show applyEvent S (.evUndo k false tu) = undoResult S k false tu from rfl]
      rw [hU, hRW]
      rw [replayCards_inPlay RP
        { S with
          lastActionTime := tu
          actionTime := S.actionTime.take (S.actionTime.length - k)
          play := S.play.take (S.play.length - k)
          tricks := some ((chunkPlay S.denom (some (Int.tmod (dec + 1) 4))
              (S.play.take (S.play.length - k))).1,
            some (chunkPlay S.denom (some (Int.tmod (dec + 1) 4))
              (S.play.take (S.play.length - k))).2).1
          trick := ((chunkPlay S.denom (some (Int.tmod (dec + 1) 4))
              (S.play.take (S.play.length - k))).1,
            some (chunkPlay S.denom (some (Int.tmod (dec + 1) 4))
              (S.play.take (S.play.length - k))).2).2 }
        (some (Int.tmod (dec + 1) 4)) hSol hFwd rfl rfl]
      rw [hRP, List.take_append_drop]
      simp [coreFields, hSol, hTs, hTr]
    · rw [Bool.not_eq_true] at hSol
      have hP0 : S.play = [] := hNoLead hSol
      have hk0 : k = 0 := by rw [hP0] at hk; simpa using hk
      subst hk0
      have hRPnil : RP = [] := by
        rw [hP0] at hRP
        simpa using hRP
      subst hRPnil
      have hre : replayEvents S (.evUndo 0 false tu :: (callEvents [] ++ cardEvents [])) =
          undoResult S 0 false tu := rfl
      rw [hre, undo_noLead S 0 tu hSol (by omega) (by omega)]
      simp [coreFields]
  · obtain ⟨hAm, hNE⟩ := hCross hk
    have hsplit : replayEvents S (.evUndo k false tu :: (callEvents RC ++ cardEvents RP)) =
        replayEvents (replayEvents (undoResult S k false tu) (callEvents RC))
          (cardEvents RP) := by
      show List.foldl applyEvent (applyEvent S (.evUndo k false tu))
        (callEvents RC ++ cardEvents RP) = _
      rw [List.foldl_append]
      rfl
    rw [hsplit, undo_crossing S k tu hk hGuard (by omega)]
    exact crossing_chain S
      { S with
        lastActionTime := tu
        actionTime := S.actionTime.take (S.actionTime.length - k)
        seenOpeningLead := false
        play := []
        auction := S.auction.take (S.auction.length - (k - S.play.length))
        amDummy := false }
      con den dec RC RP rfl rfl rfl hRe
      (by rw [hRC]; exact List.take_append_drop _ _)
      rfl rfl rfl rfl rfl rfl rfl rfl hAm hRe hLead hNoLead hNE
      (by rw [hRP, Nat.sub_eq_zero_of_le (Nat.le_of_lt hk), List.drop_zero])

/-- C7 witness: the amended round trip at a concrete mid-play state (auction
1S-p-p-p by North, spade ace led), undoing two actions - the lead and the
final pass - and replaying the pass and then the lead. -/
theorem undo_replay_roundtrip_witness :
    (2 ≤ exMidPlay.actionTime.length ∧
     exMidPlay.actionTime.length = exMidPlay.auction.length + exMidPlay.play.length) ∧
    coreFields (replayEvents exMidPlay
      (.evUndo 2 false 500 ::
        (callEvents [((['p'] : Call), 6)] ++ cardEvents [(⟨'S','A'⟩, 7)]))) =
      coreFields exMidPlay :=
  ⟨⟨by decide, by decide⟩,
    undo_replay_roundtrip exMidPlay 2 500 (['1','S'] : Call) (some 'S') 2
      [((['p'] : Call), 6)] [(⟨'S','A'⟩, 7)]
      (by decide) (Or.inl (by decide)) (by decide) (by decide)
      (fun _ => ⟨rfl, by decide, rfl, rfl, rfl, by decide, by decide⟩)
      (fun h => absurd h (by decide))
      (fun _ => ⟨by decide, fun _ => by decide⟩)
      (by decide) (by decide)⟩

end BBOBot
